import Mathlib

/-!
Verification development for the retrieval pipeline of
`viet-rag2-multitenant-assistant`.

We give a shallow embedding of the pipeline's pure core:

* `app/services/retrieval/bm25.py` — the BM25 lexical index
  (`_tokenize`, `BM25Index.build/score/query`, `get_bm25_state`,
  `bm25_retrieve`);
* `app/services/rag/incontext_ralm.py` — result identity keys
  (`_result_key`), reciprocal-rank fusion (`_hybrid_fuse`), the
  tenant-filtered vector retriever adapter (`_vector_retrieve`),
  the prompt-context budget loop, and the orchestrator
  (`query_with_incontext_ralm`);
* `app/services/guardrails/domain_guard.py` and `smalltalk.py`
  (`DomainGuard.decide`, `SmalltalkMatcher.match`).

Modelling conventions: Python floats are modelled exactly, as `ℚ` where
the code only performs field operations and as `ℝ` where it calls
`math.log`; Python dicts are modelled as insertion-ordered association
lists (Python ≥ 3.7 semantics); `list.sort(..., reverse=True)` (a stable
descending sort) is modelled with `List.mergeSort` and the reflexive
comparison `b.score ≤ a.score`, which preserves the original order of
ties exactly as CPython's Timsort does; external collaborators (the
embedding service, the vector store, the LLM, the filesystem) are
explicit oracle parameters, following the call contracts in the spec.
Exceptions are modelled with `Except`/`Option`.
-/

/-! ### Tokenizer (`_tokenize` in bm25.py)

`re.findall(r"\w+", (text or "").lower(), flags=re.UNICODE)`:
maximal runs of word characters (alphanumerics and underscore) of the
lowercased text. -/

def isWordChar (c : Char) : Bool := c.isAlphanum || c == '_'

/-- Accumulator-based scanner extracting maximal runs of word characters.
`acc` holds the current run, reversed. -/
def tokenizeAux : List Char → List Char → List String
  | [], acc => if acc.isEmpty then [] else [String.mk acc.reverse]
  | c :: cs, acc =>
    if isWordChar c then tokenizeAux cs (c :: acc)
    else if acc.isEmpty then tokenizeAux cs []
    else String.mk acc.reverse :: tokenizeAux cs []

def _tokenize (text : String) : List String :=
  tokenizeAux text.toLower.toList []

/-- Python's `str.strip()`: drop leading and trailing whitespace.
(Structurally recursive, unlike `String.trim`, so concrete instances
evaluate.) -/
def pyStrip (s : String) : String :=
  String.mk (((s.toList.dropWhile Char.isWhitespace).reverse.dropWhile
    Char.isWhitespace).reverse)

/-! ### BM25 index (`BM25Index` in bm25.py)

Per-document term frequencies and the document-frequency table are
dictionaries in the source; we model them as functions. -/

structure BM25Index where
  k1 : ℚ
  b : ℚ
  N : ℕ
  doc_len : List ℕ
  avgdl : ℚ
  tf : List (String → ℕ)
  df : String → ℕ

/-- Term frequency of `t` in a token list (the dict built in `build`). -/
def tfOf (tokens : List String) : String → ℕ := fun t => tokens.count t

/-- `BM25Index.build`: tokenize every text, record document lengths,
term frequencies, document frequencies, and the average document length
(`sum/N if N else 0.0`). -/
def BM25Index.build (k1 b : ℚ) (texts : List String) : BM25Index :=
  let tokss := texts.map _tokenize
  { k1 := k1
    b := b
    N := texts.length
    doc_len := tokss.map List.length
    avgdl := if texts.length = 0 then 0
             else ((tokss.map List.length).sum : ℚ) / (texts.length : ℚ)
    tf := tokss.map tfOf
    df := fun t => (tokss.filter (fun toks => t ∈ toks)).length }

/-- `BM25Index._idf`: `ln((N-n+0.5)/(n+0.5)+1)` when `N > 0`, else `0`. -/
noncomputable def BM25Index._idf (idx : BM25Index) (term : String) : ℝ :=
  if idx.N = 0 then 0
  else Real.log (((idx.N : ℝ) - (idx.df term : ℝ) + 0.5) / ((idx.df term : ℝ) + 0.5) + 1)

/-- `BM25Index.score`: sum over the query tokens of
`idf * f*(k1+1) / (f + k1*(1-b+b*dl/avgdl))`, with the source's
`or`-guards: `dl or 1`, `avgdl or 1`, `denom or 1`; terms with `f = 0`
are skipped. -/
noncomputable def BM25Index.score (idx : BM25Index) (qTokens : List String) (i : ℕ) : ℝ :=
  let dl : ℕ := if idx.doc_len.getD i 0 = 0 then 1 else idx.doc_len.getD i 0
  let tfDoc := idx.tf.getD i (fun _ => 0)
  (qTokens.map (fun term =>
    let f := tfDoc term
    if f = 0 then 0
    else
      let denom : ℝ :=
        (f : ℝ) + (idx.k1 : ℝ) * (1 - (idx.b : ℝ) +
          (idx.b : ℝ) * (dl : ℝ) / (if idx.avgdl = 0 then 1 else (idx.avgdl : ℝ)))
      idx._idf term * ((f : ℝ) * ((idx.k1 : ℝ) + 1)) / (if denom = 0 then 1 else denom))).sum

/-- Boolean `≤` on the reals (the embedding's stand-in for a float
comparison); classical, since the code compares computed reals. -/
noncomputable def bleR (a b : ℝ) : Bool :=
  @Decidable.decide (a ≤ b) (Classical.propDecidable _)

/-- Boolean `<` on the reals. -/
noncomputable def bltR (a b : ℝ) : Bool :=
  @Decidable.decide (a < b) (Classical.propDecidable _)

/-- Comparison used to model `scored.sort(key=lambda x: x[1], reverse=True)`:
a stable descending sort keeps `a` before `b` whenever `b.score ≤ a.score`. -/
noncomputable def scoreGE (a b : ℕ × ℝ) : Bool := bleR b.2 a.2

/-- The `scored` list of `BM25Index.query`: every document index with
strictly positive score, paired with its score, in original document
order. -/
noncomputable def scoredDocs (idx : BM25Index) (qTokens : List String) : List (ℕ × ℝ) :=
  (List.range idx.N).filterMap (fun i =>
    let s := idx.score qTokens i
    if bltR 0 s then some (i, s) else none)

/-- `BM25Index.query`: empty on an empty index; otherwise score every
document, keep the strictly positive ones (in original document order),
stable-sort descending by score, truncate to `top_k`. -/
noncomputable def BM25Index.query (idx : BM25Index) (query : String) (top_k : ℕ) :
    List (ℕ × ℝ) :=
  if idx.N = 0 then []
  else ((scoredDocs idx (_tokenize query)).mergeSort scoreGE).take top_k

/-- The BM25 scoring formula exactly as the specification states it:
per query term, `idf(t) * tf*(k1+1) / (tf + k1*(1-b+b*dl/avgdl))` with
`idf = ln((N-df+0.5)/(df+0.5)+1)`, summed over the query's tokens; no
implementation guards. -/
noncomputable def scoreSpec (idx : BM25Index) (qTokens : List String) (i : ℕ) : ℝ :=
  let dl : ℕ := idx.doc_len.getD i 0
  let tfDoc := idx.tf.getD i (fun _ => 0)
  (qTokens.map (fun t =>
    Real.log (((idx.N : ℝ) - (idx.df t : ℝ) + 0.5) / ((idx.df t : ℝ) + 0.5) + 1) *
      ((tfDoc t : ℝ) * ((idx.k1 : ℝ) + 1)) /
      ((tfDoc t : ℝ) + (idx.k1 : ℝ) *
        (1 - (idx.b : ℝ) + (idx.b : ℝ) * (dl : ℝ) / (idx.avgdl : ℝ))))).sum

/-- Number of documents the spec says a query matches: those whose
spec-formula score is strictly positive. -/
noncomputable def posCount (idx : BM25Index) (qTokens : List String) : ℕ :=
  (List.range idx.N).countP (fun i => bltR 0 (scoreSpec idx qTokens i))

/-! ### Prompt-context budget loop (`query_with_incontext_ralm`, bm25.py caller)

The loop in the orchestrator:
```
for it in selected:
    t = it.get("text", "")
    if not t: continue
    t = t[:PER_CHUNK_PROMPT_MAX_CHARS]
    if used + len(t) > budget: break
    retrieved_texts.append(t)
    used += len(t)
```
-/

def packContexts (cap budget : ℕ) : List String → ℕ → List String
  | [], _ => []
  | t :: rest, used =>
    if t = "" then packContexts cap budget rest used
    else
      let t' := t.take cap
      if budget < used + t'.length then []
      else t' :: packContexts cap budget rest (used + t'.length)

/-! ### Retrieved items and fusion identity keys (`_result_key`)

`RetrievedItem = {id?, text, score, meta}`; metadata is modelled as an
insertion-ordered association list of string keys to string values
(non-string metadata values never satisfy the source's
`isinstance(v, str)` checks, so they behave like absent keys). -/

structure RItem where
  id : Option String
  text : String
  score : ℝ
  meta : List (String × String)

/-- Python truthiness of an optional string: `None` and `""` are falsy. -/
def strTruthy : Option String → Bool
  | some s => !(s == "")
  | none => false

def metaGet (m : List (String × String)) (k : String) : Option String := m.lookup k

/-- `_result_key` from incontext_ralm.py, translated branch by branch. -/
def _result_key (r : RItem) : String :=
  if strTruthy r.id then r.id.getD ""
  else
    let dId := metaGet r.meta "doc_id"
    let cId := metaGet r.meta "chunk_id"
    if strTruthy dId && strTruthy cId then dId.getD "" ++ ":" ++ cId.getD ""
    else if strTruthy cId then cId.getD ""
    else if strTruthy dId then dId.getD ""
    else
      let src :=
        if strTruthy (metaGet r.meta "source") then metaGet r.meta "source"
        else if strTruthy (metaGet r.meta "file_name") then metaGet r.meta "file_name"
        else metaGet r.meta "file_path"
      if strTruthy src then src.getD "" ++ "::" ++ r.text.take 120
      else r.text.take 200

/-- First truthy entry of a list of optional strings. -/
def firstTruthy : List (Option String) → Option String
  | [] => none
  | o :: os => if strTruthy o then o else firstTruthy os

/-- The identity-key precedence exactly as claim C9 states it
(explicit id; else composite `doc_id:chunk_id`; else source hint plus
first 120 characters of text), with no other fallback levels. -/
def result_key_claimed (r : RItem) : String :=
  let dId := metaGet r.meta "doc_id"
  let cId := metaGet r.meta "chunk_id"
  if strTruthy r.id then r.id.getD ""
  else if strTruthy dId && strTruthy cId then dId.getD "" ++ ":" ++ cId.getD ""
  else (firstTruthy [metaGet r.meta "source", metaGet r.meta "file_name",
    metaGet r.meta "file_path"]).getD "" ++ "::" ++ r.text.take 120

/-- The full precedence the source actually implements: explicit id;
else composite `doc_id:chunk_id` when both present; else `chunk_id`
alone; else `doc_id` alone; else source hint
(`source`/`file_name`/`file_path`) plus first 120 characters of text;
else the first 200 characters of the text. -/
def result_key_amended (r : RItem) : String :=
  let dId := metaGet r.meta "doc_id"
  let cId := metaGet r.meta "chunk_id"
  let composite : Option String :=
    if strTruthy dId && strTruthy cId then some (dId.getD "" ++ ":" ++ cId.getD "")
    else none
  let srcKey : Option String :=
    (firstTruthy [metaGet r.meta "source", metaGet r.meta "file_name",
      metaGet r.meta "file_path"]).map (fun s => s ++ "::" ++ r.text.take 120)
  (firstTruthy [r.id, composite, cId, dId, srcKey]).getD (r.text.take 200)

/-- Concrete item separating the claimed precedence from the code:
no explicit id, a `chunk_id` but no `doc_id`, and a `source` hint. -/
def keyCexItem : RItem :=
  { id := none, text := "T", score := 0,
    meta := [("chunk_id", "c1"), ("source", "s")] }

/-! ### Vector retriever adapter (`_vector_retrieve`)

The external vector store, the imported filter classes, and the two
retriever API shapes probed reflectively by the source are oracle
parameters. -/

structure RawNode where
  node_id : Option String
  text : String
  score : ℝ
  meta : List (String × String)

structure MetaFilters where
  pairs : List (String × String)

structure VecConfig where
  REQUIRE_TENANT_ID : Bool
  ENFORCE_METADATA_FILTERS : Bool
  ENABLE_BRANCH_FILTER : Bool
  TENANT_FIELD : String
  BRANCH_FIELD : String

structure VecEnv where
  /-- whether `ExactMatchFilter`/`MetadataFilters` import successfully -/
  filtersImportOk : Bool
  /-- whether `index.as_retriever(..., filters=...)` is accepted -/
  retrieverAcceptsFilters : Bool
  /-- whether the fallback `setattr` on the retriever succeeds -/
  filterAttrSettable : Bool
  /-- the external vector search: filters, query, top_k ↦ nodes -/
  search : Option MetaFilters → String → ℕ → List RawNode

/-- `_build_metadata_filters`: `None` when the import fails or no filter
is requested; tenant filter on truthy tenant_id, branch filter only when
branch filtering is enabled. -/
def _build_metadata_filters (cfg : VecConfig) (env : VecEnv)
    (tenant_id branch_id : Option String) : Option MetaFilters :=
  if !env.filtersImportOk then none
  else
    let fs :=
      (if strTruthy tenant_id then [(cfg.TENANT_FIELD, tenant_id.getD "")] else []) ++
      (if cfg.ENABLE_BRANCH_FILTER && strTruthy branch_id then
        [(cfg.BRANCH_FIELD, branch_id.getD "")] else [])
    if fs = [] then none else some ⟨fs⟩

/-- `_vector_retrieve`: require-tenant guard, filter construction, the
reflective filter-application probe, the fail-closed enforcement check,
then the external search and the node-to-item projection
(`text[:1200]`). -/
def _vector_retrieve (cfg : VecConfig) (env : VecEnv) (user_query : String)
    (top_k : ℕ) (tenant_id branch_id : Option String) : List RItem :=
  if cfg.REQUIRE_TENANT_ID && !strTruthy tenant_id then []
  else
    let mf := _build_metadata_filters cfg env tenant_id branch_id
    let applied : Bool :=
      if env.retrieverAcceptsFilters then true
      else mf.isSome && env.filterAttrSettable
    let effFilters : Option MetaFilters :=
      if env.retrieverAcceptsFilters then mf
      else if env.filterAttrSettable then mf
      else none
    if cfg.ENFORCE_METADATA_FILTERS && mf.isSome && !applied then []
    else
      (env.search effFilters user_query top_k).map (fun n =>
        { id := n.node_id, text := n.text.take 1200, score := n.score, meta := n.meta })

/-! ### Fusion engine (`_hybrid_fuse`)

The fused accumulator is a Python dict keyed by `_result_key`; we model
it as an insertion-ordered association list (`List FEntry`).  RRF
arithmetic uses only field operations, so scores live in `ℚ`. -/

structure FItem where
  id : Option String
  text : String
  meta : List (String × String)
  score : ℚ
deriving DecidableEq

abbrev FEntry := String × FItem

/-- Non-destructive metadata merge: existing keys win, new keys are
appended in iteration order. -/
def metaMerge (cm m : List (String × String)) : List (String × String) :=
  m.foldl (fun acc kv => if (acc.map Prod.fst).contains kv.1 then acc else acc ++ [kv]) cm

/-- Fresh dict entry created on first sight of a key. -/
def mkEntry (r : RItem) (add : ℚ) : FEntry :=
  (_result_key r, { id := r.id, text := r.text, meta := r.meta, score := add })

/-- In-place update of an existing entry: accumulate the score, backfill
a missing id, merge metadata non-destructively. -/
def updItem (it : FItem) (r : RItem) (add : ℚ) : FItem :=
  { id := if !strTruthy it.id && strTruthy r.id then r.id else it.id
    text := it.text
    meta := metaMerge it.meta r.meta
    score := it.score + add }

/-- One `fused[key]` upsert of `_add_ranked`'s loop body. -/
def addOne (r : RItem) (add : ℚ) : List FEntry → List FEntry
  | [] => [mkEntry r add]
  | e :: es =>
    if e.1 == _result_key r then (e.1, updItem e.2 r add) :: es
    else e :: addOne r add es

/-- `_add_ranked(res, weight=w)`: `for rank, r in enumerate(res, 1):
add = w * 1/(rrf_k + rank)` followed by the upsert. -/
def addRanked (w : ℚ) (rrfK : ℕ) : List RItem → ℕ → List FEntry → List FEntry
  | [], _, d => d
  | r :: rs, rank, d =>
    addRanked w rrfK rs (rank + 1) (addOne r (w * (1 / ((rrfK : ℚ) + (rank : ℚ)))) d)

/-- Stable descending comparison on fused scores, modelling
`sorted(fused.values(), key=lambda x: x["score"], reverse=True)`. -/
def fEntryGE (a b : FEntry) : Bool := decide (b.2.score ≤ a.2.score)

/-- The fused dict after both weighted passes (vector first, lexical
second). -/
def fuseEntries (alpha : ℚ) (rrfK : ℕ) (vec_res bm25_res : List RItem) : List FEntry :=
  addRanked (1 - alpha) rrfK bm25_res 1 (addRanked alpha rrfK vec_res 1 [])

/-- The fused dict's values sorted descending by score (stably), with
their identity keys carried alongside. -/
def fusedRanking (alpha : ℚ) (rrfK : ℕ) (vec_res bm25_res : List RItem) : List FEntry :=
  (fuseEntries alpha rrfK vec_res bm25_res).mergeSort fEntryGE

/-- `HYBRID_ALPHA` sanitisation: default to `0.5` when out of `[0, 1]`. -/
def effAlpha (alpha : ℚ) : ℚ := if 0 ≤ alpha ∧ alpha ≤ 1 then alpha else 1 / 2

/-- `_hybrid_fuse`: sanitise alpha, run both ranked passes, sort
descending, truncate to `final_top_k`. -/
def _hybrid_fuse (alpha : ℚ) (vec_res bm25_res : List RItem) (final_top_k rrfK : ℕ) :
    List FItem :=
  ((fusedRanking (effAlpha alpha) rrfK vec_res bm25_res).take final_top_k).map Prod.snd

/-! Auxiliary descriptions of the fused dict, used to characterise
`addRanked` (they are proof devices, not part of the embedding). -/

/-- Position and witness of the first list element carrying key `k`. -/
def keyFind : List RItem → String → Option (ℕ × RItem)
  | [], _ => none
  | r :: rs, k =>
    if _result_key r == k then some (0, r)
    else (keyFind rs k).map (fun p => (p.1 + 1, p.2))

/-- The cumulative effect of one `_add_ranked` pass on an entry already
present in the dict. -/
def passUpd (w : ℚ) (rrfK ρ : ℕ) (rs : List RItem) (e : FEntry) : FEntry :=
  match keyFind rs e.1 with
  | none => e
  | some (j, r) => (e.1, updItem e.2 r (w * (1 / ((rrfK : ℚ) + ((ρ + j : ℕ) : ℚ)))))

/-- The entries one `_add_ranked` pass appends for keys not yet in the
dict (`seen` is the set of keys already present). -/
def freshEntries (w : ℚ) (rrfK : ℕ) : List RItem → ℕ → List String → List FEntry
  | [], _, _ => []
  | r :: rs, rank, seen =>
    if seen.contains (_result_key r) then freshEntries w rrfK rs (rank + 1) seen
    else mkEntry r (w * (1 / ((rrfK : ℚ) + (rank : ℚ)))) ::
      freshEntries w rrfK rs (rank + 1) (seen ++ [_result_key r])

/-- A pass over an empty dict with pairwise-distinct keys: one fresh
entry per item, ranks counting up from `rank`. -/
def rankedFresh (w : ℚ) (rrfK : ℕ) : List RItem → ℕ → List FEntry
  | [], _ => []
  | r :: rs, rank =>
    mkEntry r (w * (1 / ((rrfK : ℚ) + (rank : ℚ)))) :: rankedFresh w rrfK rs (rank + 1)

/-- Pointwise form of `addOne` on a dict already containing the key. -/
def updAt (r : RItem) (add : ℚ) (e : FEntry) : FEntry :=
  if e.1 = _result_key r then (e.1, updItem e.2 r add) else e

/-- The fused entries reordered by the second (lexical) pass's ranks:
for each lexical item in rank order, the updated first-pass entry when
its key is already in the dict `d`, else the fresh entry.  (Proof
device for the `alpha = 0` fusion limit.) -/
def bmTarget (w : ℚ) (K : ℕ) (d : List FEntry) : List RItem → ℕ → List FEntry
  | [], _ => []
  | r :: rs, rank =>
    (match d.lookup (_result_key r) with
     | some it => (_result_key r, updItem it r (w * (1 / ((K : ℚ) + (rank : ℚ)))))
     | none => mkEntry r (w * (1 / ((K : ℚ) + (rank : ℚ))))) ::
      bmTarget w K d rs (rank + 1)

/-! ### Per-tenant BM25 state (`get_bm25_state`, `bm25_retrieve`)

The filesystem, the global document loader and the external
`SentenceSplitter` are oracle parameters.  Paths built with
`os.path.join(dirname(NODES_CACHE_PATH), tenant[, branch], "nodes.jsonl")`
are modelled structurally by `NodesKey`. -/

structure NodeRec where
  node_id : Option String
  text : String
  meta : List (String × String)

inductive NodesKey
  | global
  | tenant (t : String)
  | tenantBranch (t b : String)
deriving DecidableEq

structure BmConfig where
  BM25_SOURCE : String
  BM25_K1 : ℚ
  BM25_B : ℚ

structure PyDoc where
  text : String
  meta : List (String × String)

structure BmEnv where
  /-- parsed contents of each persisted nodes file, `none` = missing -/
  nodesFile : NodesKey → Option (List NodeRec)
  /-- `load_documents(DATA_PATH)` -/
  globalDocs : List PyDoc
  /-- `SentenceSplitter(...).get_nodes_from_documents(globalDocs)`:
  text and metadata of each produced node (external collaborator) -/
  sentenceNodes : List (String × List (String × String))

/-- The nodes-cache path chosen by `get_bm25_state` (Python truthiness:
an empty tenant or branch string selects the less specific path). -/
def cacheKeyFor (tenant_id branch_id : Option String) : NodesKey :=
  match tenant_id with
  | none => .global
  | some t =>
    if t = "" then .global
    else
      match branch_id with
      | some b => if b = "" then .tenant t else .tenantBranch t b
      | none => .tenant t

/-- `_split_into_chunks`: fixed-window, overlapping character chunks.
The `while` loop advances by `max_chars - overlap` per step; we recurse
on fuel (the loop diverges only when `overlap ≥ max_chars`, which the
repo never configures). -/
def splitChunksLoop (t : List Char) (max_chars overlap : ℕ) :
    ℕ → ℕ → List String
  | _, 0 => []
  | start, fuel + 1 =>
    if start < t.length then
      let e := min t.length (start + max_chars)
      let chunk := String.mk ((t.drop start).take (e - start))
      if e = t.length then [chunk]
      else chunk :: splitChunksLoop t max_chars overlap (e - overlap) fuel
    else []

def _split_into_chunks (text : String) (max_chars overlap : ℕ) : List String :=
  if text = "" then []
  else
    let t := pyStrip text
    if t.length ≤ max_chars then [t]
    else splitChunksLoop t.toList max_chars overlap 0 (t.length + 1)

structure BmState where
  index : BM25Index
  texts : List String
  metas : List (List (String × String))
  ids : List (Option String)
  cache_path : Option NodesKey
  source : String
  n_docs : ℕ

/-- Assemble the cached state from the gathered corpus. -/
def mkBmState (cfg : BmConfig) (texts : List String)
    (metas : List (List (String × String))) (ids : List (Option String))
    (cache_path : Option NodesKey) : BmState :=
  let bm25 := BM25Index.build cfg.BM25_K1 cfg.BM25_B texts
  { index := bm25, texts := texts, metas := metas, ids := ids,
    cache_path := cache_path, source := cfg.BM25_SOURCE, n_docs := bm25.N }

/-- `_load_from_nodes_cache` applied to a parsed file: texts, metadata
and (truthy-string) ids of each record. -/
def loadedTriple (recs : List NodeRec) :
    List String × List (List (String × String)) × List (Option String) :=
  (recs.map NodeRec.text, recs.map NodeRec.meta,
    recs.map (fun r => if strTruthy r.node_id then r.node_id else none))

/-- `get_bm25_state`: per-(tenant,branch) cache lookup, the fail-closed
guard for non-`nodes_file` sources under a tenant scope, the persisted
nodes file as preferred source with fail-closed behaviour when it is
missing under a tenant/branch scope, the local-dev rebuild fallback,
and the legacy files mode. -/
def get_bm25_state (cfg : BmConfig) (env : BmEnv)
    (cache : Option String × Option String → Option BmState)
    (max_chars : ℕ) (tenant_id branch_id : Option String) : BmState :=
  match cache (tenant_id, branch_id) with
  | some st => st
  | none =>
    if tenant_id.isSome && !(cfg.BM25_SOURCE == "nodes_file") then
      mkBmState cfg [] [] [] none
    else if cfg.BM25_SOURCE == "nodes_file" then
      let key := cacheKeyFor tenant_id branch_id
      match env.nodesFile key with
      | some recs =>
        let tri := loadedTriple recs
        mkBmState cfg tri.1 tri.2.1 tri.2.2 (some key)
      | none =>
        if tenant_id = none ∧ branch_id = none then
          mkBmState cfg (env.sentenceNodes.map Prod.fst)
            (env.sentenceNodes.map Prod.snd)
            (env.sentenceNodes.map (fun _ => none)) (some key)
        else
          mkBmState cfg [] [] [] (some key)
    else
      let chunks := env.globalDocs.flatMap (fun d =>
        (_split_into_chunks d.text max_chars 100).map (fun ch =>
          (ch, [("file_name",
            (firstTruthy [metaGet d.meta "file_name", metaGet d.meta "file_path",
              metaGet d.meta "source"]).getD "unknown")])))
      mkBmState cfg (chunks.map Prod.fst) (chunks.map Prod.snd)
        (chunks.map (fun _ => none)) none

/-- `bm25_retrieve`: query the cached per-tenant index and project the
hits back to items. -/
noncomputable def bm25_retrieve (cfg : BmConfig) (env : BmEnv)
    (cache : Option String × Option String → Option BmState)
    (query : String) (top_k max_chars : ℕ)
    (tenant_id branch_id : Option String) : List RItem :=
  let st := get_bm25_state cfg env cache max_chars tenant_id branch_id
  (st.index.query query top_k).map (fun p =>
    { id := if p.1 < st.ids.length then st.ids.getD p.1 none else none
      text := st.texts.getD p.1 ""
      score := p.2
      meta := st.metas.getD p.1 [] })

/-! ### Guardrails (`DomainGuard.decide`, `SmalltalkMatcher.match`)

The embedding service is an oracle `String → Except Unit (List ℝ)`;
an `error` result models a raised exception.  Anchor/smalltalk resource
files are oracle data (`none` = missing file, parse failures fold to
`[]` in the source).  `_strip_accents` (Unicode NFD filtering) is an
oracle as well. -/

structure StRaw where
  id : String
  questions : List String
  answer : String

structure GuardEnv where
  embed : String → Except Unit (List ℝ)
  stripAccents : String → String
  anchorsData : Option (List String)
  smalltalkData : Option (List StRaw)

/-- `_cosine` over `np.float` vectors: dot product over the product of
norms plus `1e-9`. -/
noncomputable def npCosine (a b : List ℝ) : ℝ :=
  (List.zipWith (· * ·) a b).sum /
    (Real.sqrt ((a.map (fun x => x * x)).sum) *
      Real.sqrt ((b.map (fun x => x * x)).sum) + 1e-9)

/-- `DomainGuard._load`: keep non-blank string anchors, embed each one,
skipping anchors whose embedding raises. -/
def loadAnchorEmbs (env : GuardEnv) : List (String × List ℝ) :=
  ((env.anchorsData.getD []).filter (fun a => !(pyStrip a == ""))).filterMap
    (fun a => (env.embed a).toOption.map (fun v => (a, v)))

/-- Accent-insensitive lowercase normalisation used by the keyword
short-circuit. -/
def kwNorm (env : GuardEnv) (s : String) : String := (env.stripAccents s).toLower

/-- Python's `needle in hay` on strings, via character lists. -/
def strContains (hay needle : List Char) : Bool :=
  match hay with
  | [] => needle.isEmpty
  | _ :: t => needle.isPrefixOf hay || strContains t needle

structure DomainDecision where
  in_domain : Bool
  score : ℝ
  matched_anchor : Option String
  reason : String

/-- The best-anchor scan: start from `-1.0`, keep strictly improving
scores (first maximum wins). -/
noncomputable def bestAnchor (qv : List ℝ) (embs : List (String × List ℝ)) :
    Option String × ℝ :=
  embs.foldl (fun best p =>
    let s := npCosine qv p.2
    if bltR best.2 s then (some p.1, s) else best)
    (none, -1)

/-- `DomainGuard.decide`, translated branch by branch: empty-query
rejection, accent-insensitive keyword short-circuit, permissive
`no_anchors` and `embed_failed` outcomes, cosine-vs-threshold anchor
decision. -/
noncomputable def DomainGuard.decide (env : GuardEnv) (keywords : List String)
    (query : String) (threshold : ℝ) : DomainDecision :=
  let q := pyStrip query
  if q = "" then ⟨false, 0, none, "empty"⟩
  else
    let qNorm := kwNorm env q
    match keywords.find? (fun kw =>
        !(kw == "") && strContains qNorm.toList (kwNorm env kw).toList) with
    | some kw => ⟨true, 1, some kw, "keyword"⟩
    | none =>
      let embs := loadAnchorEmbs env
      if embs.isEmpty then ⟨true, 1, none, "no_anchors"⟩
      else
        match env.embed q with
        | .error _ => ⟨true, 1, none, "embed_failed"⟩
        | .ok qv =>
          let best := bestAnchor qv embs
          ⟨bleR threshold best.2, best.2, best.1, "anchor"⟩

structure SmalltalkHit where
  id : String
  answer : String
  score : ℝ
  matched_question : String

/-- `SmalltalkMatcher._load`: drop items whose question list has no
non-blank entry, keeping only the non-blank questions. -/
def stItems (env : GuardEnv) : List StRaw :=
  (env.smalltalkData.getD []).filterMap (fun o =>
    let qs := o.questions.filter (fun q => !(pyStrip q == ""))
    if qs.isEmpty then none else some ⟨o.id, qs, o.answer⟩)

/-- Precomputed `(id, question, embedding)` triples; questions whose
embedding raises are skipped. -/
def stQEmbeddings (env : GuardEnv) : List (String × String × List ℝ) :=
  (stItems env).flatMap (fun it =>
    it.questions.filterMap (fun q =>
      (env.embed q).toOption.map (fun v => (it.id, q, v))))

/-- `SmalltalkMatcher.match` (named `matchQuery` here because `match` is
a Lean keyword): strip, lazy load, embed with fail-open, best-match
scan, threshold check, then answer lookup by id. -/
noncomputable def SmalltalkMatcher.matchQuery (env : GuardEnv)
    (query : String) (threshold : ℝ) : Option SmalltalkHit :=
  let q := pyStrip query
  if q = "" then none
  else
    let qemb := stQEmbeddings env
    if qemb.isEmpty then none
    else
      match env.embed q with
      | .error _ => none
      | .ok qv =>
        let best := qemb.foldl (fun (best : Option (String × String × ℝ)) trip =>
          let s := npCosine qv trip.2.2
          match best with
          | none => some (trip.1, trip.2.1, s)
          | some b =>
            if bltR b.2.2 s then some (trip.1, trip.2.1, s)
            else best) none
        match best with
        | none => none
        | some b =>
          if bltR b.2.2 threshold then none
          else
            ((stItems env).find? (fun it => it.id == b.1)).map (fun it =>
              ⟨b.1, it.answer, b.2.2, b.2.1⟩)

/-! ### Orchestrator (`query_with_incontext_ralm`)

Post-fusion scores mix rational RRF scores with real cosines, so
pipeline items carry real scores (`PItem`).  The function is modelled
through context assembly; per the spec (§4.7, §6) the generation call
is an external collaborator, so a run that reaches it is represented by
the `ready` outcome carrying the contexts, ranked examples and sources
the source code would feed into prompt building and the LLM.
Debug printing and the timing-metrics dictionary (wall-clock
measurements) are not modelled.  A Python exception escaping the
function is `Except.error`. -/

structure PItem where
  id : Option String
  text : String
  meta : List (String × String)
  score : ℝ

def FItem.toP (it : FItem) : PItem := ⟨it.id, it.text, it.meta, (it.score : ℝ)⟩

noncomputable def pItemGE (a b : PItem) : Bool := bleR b.score a.score

structure RagConfig where
  ENABLE_SMALLTALK : Bool
  SMALLTALK_COSINE_THRESHOLD : ℝ
  ENABLE_DOMAIN_GUARD : Bool
  DOMAIN_ANCHOR_COSINE_THRESHOLD : ℝ
  DOMAIN_COSINE_THRESHOLD : ℝ
  DOMAIN_KEYWORDS : List String
  OUT_OF_DOMAIN_MESSAGE : String
  USE_BM25 : Bool
  BM25_TOP_K : ℕ
  BM25_MAX_CHARS : ℕ
  HYBRID_ALPHA : ℚ
  RERANK_USE_COSINE : Bool
  RERANK_TOP_M : ℕ
  RERANK_WEIGHT : ℝ
  PROMPT_TOP_CONTEXTS : ℕ
  MAX_PROMPT_CHARS : ℕ
  PER_CHUNK_PROMPT_MAX_CHARS : ℕ

structure RagEnv where
  guard : GuardEnv
  vec : VecEnv
  bm : BmEnv
  bmCache : Option String × Option String → Option BmState
  /-- parsed few-shot Q/A examples (`load_fewshot_examples`) -/
  fewshotExamples : List (String × String)

noncomputable def optListMax : List ℝ → Option ℝ
  | [] => none
  | x :: xs => some (xs.foldl max x)

noncomputable def optListMin : List ℝ → Option ℝ
  | [] => none
  | x :: xs => some (xs.foldl min x)

/-- Embed a batch of texts; any raised exception aborts the batch
(the enclosing `try` in the source catches it). -/
def traverseEmbeds (env : GuardEnv) : List String → Option (List (List ℝ))
  | [] => some []
  | t :: ts =>
    match env.embed t with
    | .error _ => none
    | .ok v => (traverseEmbeds env ts).map (fun vs => v :: vs)

/-- The optional cosine rerank of the top fused pool; returns the
possibly-reordered list and the best raw cosine observed (reused by the
post-retrieval domain guard).  Any embedding failure keeps the fusion
order (`except` branch). -/
noncomputable def rerankStep (cfg : RagConfig) (env : GuardEnv)
    (user_query : String) (top_k_ctx : ℕ) (fused : List PItem) :
    List PItem × Option ℝ :=
  if cfg.RERANK_USE_COSINE && !fused.isEmpty then
    match env.embed user_query with
    | .error _ => (fused, none)
    | .ok qv =>
      let pool := fused.take (min cfg.RERANK_TOP_M fused.length)
      match traverseEmbeds env (pool.map PItem.text) with
      | none => (fused, none)
      | some vs =>
        let cosScores := vs.map (fun v => npCosine qv v)
        let bestCos := optListMax cosScores
        let mn := (optListMin cosScores).getD 0
        let mx := (optListMax cosScores).getD 0
        let rng := if bltR mn mx then mx - mn else 1
        let cosNorm := cosScores.map (fun c => (c - mn) / rng)
        let maxF := (optListMax (pool.map PItem.score)).getD 0
        let rescored := (pool.zip cosNorm).map (fun p =>
          let fNorm := if bltR 0 maxF then p.1.score / maxF else 0
          { p.1 with
            score := (1 - cfg.RERANK_WEIGHT) * fNorm + cfg.RERANK_WEIGHT * p.2 })
        ((rescored.mergeSort pItemGE).take top_k_ctx, bestCos)
  else (fused, none)

/-- The post-retrieval guard's best cosine: reuse the rerank's value,
else embed the query and the single top fused chunk, failing to `none`
on any exception. -/
noncomputable def postBestCos (env : GuardEnv) (query : String)
    (fused : List PItem) (bc : Option ℝ) : Option ℝ :=
  match bc with
  | some c => some c
  | none =>
    if fused.isEmpty then none
    else
      match env.embed query, env.embed ((fused.headD ⟨none, "", [], 0⟩).text) with
      | .ok a, .ok b => some (npCosine a b)
      | _, _ => none

noncomputable def exGE (a b : ℝ × (String × String)) : Bool := bleR b.1 a.1

/-- `rank_examples_by_similarity`: empty input or `top_k ≤ 0` yields
`[]`; a failing query embedding propagates (uncaught in the source);
failing example embeddings are skipped. -/
noncomputable def rankExamples (env : GuardEnv) (query : String)
    (examples : List (String × String)) (top_k : ℕ) :
    Except String (List (String × String)) :=
  if examples.isEmpty || top_k = 0 then .ok []
  else
    match env.embed query with
    | .error _ => .error "embedding failed while ranking examples"
    | .ok qv =>
      let scored := examples.filterMap (fun ex =>
        (env.embed ex.1).toOption.map (fun v => (npCosine qv v, ex)))
      .ok (((scored.mergeSort exGE).take top_k).map Prod.snd)

/-- `m.get("file_name") or m.get("file_path") or m.get("source") or "unknown"`. -/
def srcOf (m : List (String × String)) : String :=
  (firstTruthy [metaGet m "file_name", metaGet m "file_path", metaGet m "source"]).getD
    "unknown"

inductive RagOutcome
  | answer (answer : String) (sources : List String)
  | ready (contexts : List String) (examples : List (String × String))
    (sources : List String)
deriving DecidableEq

/-- `query_with_incontext_ralm`: smalltalk shortcut, domain precheck,
hybrid retrieval, fusion, optional rerank, post-retrieval domain guard,
context selection and budget packing, few-shot ranking, and the
no-evidence guard; `ready` marks the hand-off to prompt building and
generation. -/
noncomputable def query_with_incontext_ralm (cfg : RagConfig) (vcfg : VecConfig)
    (bcfg : BmConfig) (env : RagEnv) (user_query : String)
    (top_k_ctx top_k_examples : ℕ) (tenant_id branch_id : Option String) :
    Except String RagOutcome :=
  match (if cfg.ENABLE_SMALLTALK then
      SmalltalkMatcher.matchQuery env.guard user_query cfg.SMALLTALK_COSINE_THRESHOLD
    else none) with
  | some hit => .ok (.answer hit.answer [])
  | none =>
    let proceed :=
      if cfg.ENABLE_DOMAIN_GUARD then
        (DomainGuard.decide env.guard cfg.DOMAIN_KEYWORDS user_query
          cfg.DOMAIN_ANCHOR_COSINE_THRESHOLD).in_domain
      else true
    if !proceed then .ok (.answer cfg.OUT_OF_DOMAIN_MESSAGE [])
    else
      let vec_res := _vector_retrieve vcfg env.vec user_query top_k_ctx tenant_id branch_id
      let bm25_res :=
        if cfg.USE_BM25 then
          bm25_retrieve bcfg env.bm env.bmCache user_query cfg.BM25_TOP_K
            cfg.BM25_MAX_CHARS tenant_id branch_id
        else []
      let fused0 := (_hybrid_fuse cfg.HYBRID_ALPHA vec_res bm25_res top_k_ctx 60).map
        FItem.toP
      let rr := rerankStep cfg env.guard user_query top_k_ctx fused0
      let fused := rr.1
      let assemble : Unit → Except String RagOutcome := fun _ =>
        let selected := fused.take (min cfg.PROMPT_TOP_CONTEXTS fused.length)
        let budget := max 1000 (cfg.MAX_PROMPT_CHARS - 1200)
        let contexts := packContexts cfg.PER_CHUNK_PROMPT_MAX_CHARS budget
          (selected.map PItem.text) 0
        match rankExamples env.guard user_query env.fewshotExamples top_k_examples with
        | .error e => .error e
        | .ok examples =>
          if contexts.isEmpty && examples.isEmpty then
            .ok (.answer cfg.OUT_OF_DOMAIN_MESSAGE [])
          else .ok (.ready contexts examples (fused.map (fun r => srcOf r.meta)))
      if cfg.ENABLE_DOMAIN_GUARD then
        let bc := postBestCos env.guard user_query fused rr.2
        if !fused.isEmpty &&
            (match bc with
             | some c => bltR c cfg.DOMAIN_COSINE_THRESHOLD
             | none => false) then
          .ok (.answer cfg.OUT_OF_DOMAIN_MESSAGE [])
        else assemble ()
      else assemble ()

/-! ### Concrete instances used by witnesses and counterexamples -/

def dummyRItem : RItem := ⟨none, "", 0, []⟩

def vcfgReq : VecConfig :=
  { REQUIRE_TENANT_ID := true, ENFORCE_METADATA_FILTERS := true,
    ENABLE_BRANCH_FILTER := true, TENANT_FIELD := "tenant_id",
    BRANCH_FIELD := "branch_id" }

def venvW : VecEnv :=
  { filtersImportOk := true, retrieverAcceptsFilters := true,
    filterAttrSettable := true,
    search := fun _ _ _ => [⟨some "n1", "node text", 1, []⟩] }

def bmCfgNodes : BmConfig := ⟨"nodes_file", 3 / 2, 3 / 4⟩

def bmEnvCex : BmEnv :=
  { nodesFile := fun k => if k = .global then some [⟨none, "hello", []⟩] else none
    globalDocs := []
    sentenceNodes := [] }

def emptyBmCache : Option String × Option String → Option BmState := fun _ => none

def guardEnvFail : GuardEnv :=
  { embed := fun _ => .error (), stripAccents := fun s => s,
    anchorsData := none, smalltalkData := none }

def ragCfgW : RagConfig :=
  { ENABLE_SMALLTALK := true, SMALLTALK_COSINE_THRESHOLD := 0,
    ENABLE_DOMAIN_GUARD := true, DOMAIN_ANCHOR_COSINE_THRESHOLD := 0,
    DOMAIN_COSINE_THRESHOLD := 0, DOMAIN_KEYWORDS := ["học phí"],
    OUT_OF_DOMAIN_MESSAGE := "ood", USE_BM25 := true, BM25_TOP_K := 5,
    BM25_MAX_CHARS := 800, HYBRID_ALPHA := 1 / 2, RERANK_USE_COSINE := true,
    RERANK_TOP_M := 10, RERANK_WEIGHT := 0, PROMPT_TOP_CONTEXTS := 3,
    MAX_PROMPT_CHARS := 9000, PER_CHUNK_PROMPT_MAX_CHARS := 1000 }

def ragEnvW : RagEnv :=
  { guard := guardEnvFail, vec := venvW, bm := bmEnvCex,
    bmCache := emptyBmCache, fewshotExamples := [] }

def vItemK : RItem := ⟨some "k", "vector text", 0, [("file_name", "v.md")]⟩

def bItemK : RItem := ⟨some "k", "bm25 text", 0, [("file_name", "b.md")]⟩

def bmCexItem : RItem := ⟨some "b1", "lexical only", 0, []⟩

/-! ### First facts -/

theorem build_nil_N (k1 b : ℚ) : (BM25Index.build k1 b []).N = 0 := rfl

theorem build_nil_avgdl (k1 b : ℚ) : (BM25Index.build k1 b []).avgdl = 0 := rfl

theorem query_of_N_eq_zero (idx : BM25Index) (h : idx.N = 0) (q : String) (k : ℕ) :
    idx.query q k = [] := by
  unfold BM25Index.query
  simp [h]

/-- C6: `BM25Index.build` on the empty corpus succeeds with `N = 0` and
an average document length of `0` (the `sum/N if N else 0.0` guard, so
no division by zero), and every query on the resulting index returns
the empty list; as a total Lean function it raises nothing. -/
theorem bm25_empty_corpus_safe (k1 b : ℚ) (q : String) (top_k : ℕ) :
    (BM25Index.build k1 b []).N = 0 ∧ (BM25Index.build k1 b []).avgdl = 0 ∧
    (BM25Index.build k1 b []).query q top_k = [] :=
  ⟨rfl, rfl, query_of_N_eq_zero _ rfl q top_k⟩

/-- C2: when the global require-tenant-id policy is active and no
tenant id is supplied, the vector retriever adapter returns `[]` at
once — for every environment, i.e. independently of the external vector
service, which is therefore never consulted and no filters are built. -/
theorem vector_retrieve_requires_tenant (cfg : VecConfig) (env : VecEnv)
    (q : String) (k : ℕ) (branch_id : Option String)
    (hreq : cfg.REQUIRE_TENANT_ID = true) :
    _vector_retrieve cfg env q k none branch_id = [] := by
  unfold _vector_retrieve
  simp [hreq, strTruthy]

theorem vector_retrieve_requires_tenant_witness :
    vcfgReq.REQUIRE_TENANT_ID = true ∧
      _vector_retrieve vcfgReq venvW "học phí IELTS" 5 none none = [] :=
  ⟨rfl, vector_retrieve_requires_tenant vcfgReq venvW "học phí IELTS" 5 none rfl⟩

set_option maxRecDepth 8000 in
/-- C9 (counterexample): on an item with no explicit id, a `chunk_id`
but no `doc_id`, and a `source` hint, the code resolves the key to the
lone `chunk_id`, not to the source-plus-text-prefix key the claimed
three-level precedence prescribes. -/
theorem result_key_precedence_cex :
    _result_key keyCexItem = "c1" ∧ result_key_claimed keyCexItem = "s::T" ∧
      ¬ _result_key keyCexItem = result_key_claimed keyCexItem :=
  ⟨by decide, by decide, by decide⟩

theorem string_append_ne_mid (a m b : String) (hm : 0 < m.length) :
    ¬ (a ++ m ++ b) = "" := by
  intro h
  have hl := congrArg String.length h
  simp only [String.length_append, String.length_empty] at hl
  omega

theorem strTruthy_none : strTruthy none = false := rfl

theorem firstTruthy_cons_pos (o : Option String) (os : List (Option String))
    (h : strTruthy o = true) : firstTruthy (o :: os) = o := by
  simp [firstTruthy, h]

theorem firstTruthy_cons_neg (o : Option String) (os : List (Option String))
    (h : strTruthy o = false) : firstTruthy (o :: os) = firstTruthy os := by
  simp [firstTruthy, h]

theorem strTruthy_getD (o : Option String) (h : strTruthy o = true) (a b : String) :
    o.getD a = o.getD b := by
  cases o with
  | none => simp [strTruthy] at h
  | some s => rfl

theorem strTruthy_some_append (a m b : String) (hm : 0 < m.length) :
    strTruthy (some (a ++ m ++ b)) = true := by
  simp only [strTruthy, Bool.not_eq_true', beq_eq_false_iff_ne, ne_eq]
  exact string_append_ne_mid a m b hm

/-- C9 (amended): the identity key is resolved by the full five-level
precedence the source implements — explicit id; else `doc_id:chunk_id`
when both are present; else `chunk_id` alone; else `doc_id` alone; else
source hint (`source`/`file_name`/`file_path`) plus the first 120
characters of text; else the first 200 characters of the text. -/
theorem result_key_precedence_amended (r : RItem) :
    _result_key r = result_key_amended r := by
  unfold _result_key result_key_amended
  dsimp only
  by_cases h1 : strTruthy r.id = true
  · rw [if_pos h1, firstTruthy_cons_pos _ _ h1, strTruthy_getD _ h1]
  · rw [Bool.not_eq_true] at h1
    rw [if_neg (by simp [h1]), firstTruthy_cons_neg _ _ h1]
    by_cases h2 : (strTruthy (metaGet r.meta "doc_id") &&
        strTruthy (metaGet r.meta "chunk_id")) = true
    · simp only [h2, if_true]
      rw [firstTruthy_cons_pos _ _ (strTruthy_some_append _ ":" _ (by decide))]
      rfl
    · simp only [h2, Bool.false_eq_true, if_false]
      rw [firstTruthy_cons_neg _ _ strTruthy_none]
      by_cases h3 : strTruthy (metaGet r.meta "chunk_id") = true
      · rw [if_pos h3, firstTruthy_cons_pos _ _ h3, strTruthy_getD _ h3]
      · rw [Bool.not_eq_true] at h3
        rw [if_neg (by simp [h3]), firstTruthy_cons_neg _ _ h3]
        by_cases h4 : strTruthy (metaGet r.meta "doc_id") = true
        · rw [if_pos h4, firstTruthy_cons_pos _ _ h4, strTruthy_getD _ h4]
        · rw [Bool.not_eq_true] at h4
          rw [if_neg (by simp [h4]), firstTruthy_cons_neg _ _ h4]
          by_cases h5 : strTruthy (metaGet r.meta "source") = true
          · rcases hsv : metaGet r.meta "source" with _ | s
            · rw [hsv] at h5; exact absurd h5 (by decide)
            · rw [hsv] at h5
              simp only [h5, if_true, firstTruthy, Option.map_some',
                strTruthy_some_append s "::" (r.text.take 120) (by decide),
                Option.getD_some]
          · rw [Bool.not_eq_true] at h5
            by_cases h6 : strTruthy (metaGet r.meta "file_name") = true
            · rcases hsv : metaGet r.meta "file_name" with _ | s
              · rw [hsv] at h6; exact absurd h6 (by decide)
              · rw [hsv] at h6
                simp only [h5, h6, Bool.false_eq_true, if_false, if_true, firstTruthy,
                  Option.map_some',
                  strTruthy_some_append s "::" (r.text.take 120) (by decide),
                  Option.getD_some]
            · rw [Bool.not_eq_true] at h6
              by_cases h7 : strTruthy (metaGet r.meta "file_path") = true
              · rcases hsv : metaGet r.meta "file_path" with _ | s
                · rw [hsv] at h7; exact absurd h7 (by decide)
                · rw [hsv] at h7
                  simp only [h5, h6, h7, Bool.false_eq_true, if_false, if_true,
                    firstTruthy, Option.map_some',
                    strTruthy_some_append s "::" (r.text.take 120) (by decide),
                    Option.getD_some]
              · rw [Bool.not_eq_true] at h7
                simp only [h5, h6, h7, Bool.false_eq_true, if_false, firstTruthy,
                  strTruthy_none, Option.map_none', Option.getD_none]


/-! ### Context budget (C8) -/

theorem packContexts_sum_le (cap budget : ℕ) :
    ∀ (ts : List String) (used : ℕ), used ≤ budget →
      used + ((packContexts cap budget ts used).map String.length).sum ≤ budget := by
  intro ts
  induction ts with
  | nil => intro used h; simpa [packContexts] using h
  | cons t rest ih =>
    intro used h
    by_cases ht : t = ""
    · rw [packContexts, if_pos ht]; exact ih used h
    · rw [packContexts, if_neg ht]
      dsimp only
      by_cases hb : budget < used + (t.take cap).length
      · simp only [if_pos hb, List.map_nil, List.sum_nil]; omega
      · simp only [if_neg hb, List.map_cons, List.sum_cons]
        push_neg at hb
        have := ih (used + (t.take cap).length) hb
        omega

theorem packContexts_shape (cap budget : ℕ) :
    ∀ (ts : List String) (used : ℕ),
      ∃ pre, pre <+: (ts.filter (fun t => !(t == ""))) ∧
        packContexts cap budget ts used = pre.map (fun t => t.take cap) := by
  intro ts
  induction ts with
  | nil => intro used; exact ⟨[], by simp, by simp [packContexts]⟩
  | cons t rest ih =>
    intro used
    by_cases ht : t = ""
    · obtain ⟨pre, hp, he⟩ := ih used
      refine ⟨pre, ?_, ?_⟩
      · simpa [List.filter_cons, ht] using hp
      · rwa [packContexts, if_pos ht]
    · by_cases hb : budget < used + (t.take cap).length
      · refine ⟨[], ⟨_, rfl⟩, ?_⟩
        rw [packContexts, if_neg ht]
        simp [hb]
      · obtain ⟨pre, hp, he⟩ := ih (used + (t.take cap).length)
        obtain ⟨tl, htl⟩ := hp
        refine ⟨t :: pre, ⟨tl, ?_⟩, ?_⟩
        · have hbt : (!(t == "")) = true := by simp [ht]
          simp only [List.filter_cons, hbt, if_true, List.cons_append]
          rw [htl]
        · rw [packContexts, if_neg ht]
          dsimp only
          rw [if_neg hb, he]
          rfl

theorem packContexts_all (cap budget : ℕ) :
    ∀ (ts : List String) (used : ℕ),
      used + (((ts.filter (fun t => !(t == ""))).map
        (fun t => (t.take cap).length)).sum) ≤ budget →
      packContexts cap budget ts used =
        (ts.filter (fun t => !(t == ""))).map (fun t => t.take cap) := by
  intro ts
  induction ts with
  | nil => intro used _; simp [packContexts]
  | cons t rest ih =>
    intro used h
    by_cases ht : t = ""
    · rw [packContexts, if_pos ht]
      rw [List.filter_cons] at h ⊢
      simp only [ht, beq_self_eq_true, Bool.not_true, if_false, ite_false] at h ⊢
      exact ih used h
    · rw [packContexts, if_neg ht]
      dsimp only
      rw [List.filter_cons] at h ⊢
      have hbt : (!(t == "")) = true := by simp [ht]
      rw [hbt] at h ⊢
      simp only [if_true, List.map_cons, List.sum_cons] at h ⊢
      have hb : ¬ budget < used + (t.take cap).length := by omega
      rw [if_neg hb, ih (used + (t.take cap).length) (by omega)]

/-- C8: the budget loop packs the per-chunk-capped texts of the
selected items greedily: the total length never exceeds the budget;
every emitted snippet is the whole cap-truncated text of a prefix of
the (non-empty) selected texts, never a partial remainder; and when
every capped snippet fits the budget nothing is dropped — in
particular a text longer than the cap is truncated, not dropped. -/
theorem context_budget_packing (texts : List String) (cap budget : ℕ) :
    (((packContexts cap budget texts 0).map String.length).sum ≤ budget) ∧
    (∃ pre, pre <+: (texts.filter (fun t => !(t == ""))) ∧
      packContexts cap budget texts 0 = pre.map (fun t => t.take cap)) ∧
    ((((texts.filter (fun t => !(t == ""))).map
        (fun t => (t.take cap).length)).sum ≤ budget) →
      packContexts cap budget texts 0 =
        (texts.filter (fun t => !(t == ""))).map (fun t => t.take cap)) :=
  ⟨by simpa using packContexts_sum_le cap budget texts 0 (Nat.zero_le _),
   packContexts_shape cap budget texts 0,
   fun h => packContexts_all cap budget texts 0 (by simpa using h)⟩

set_option maxRecDepth 4000 in
theorem context_budget_packing_witness :
    ((packContexts 3 7 ["alpha", "", "be"] 0).map String.length).sum ≤ 7 ∧
      packContexts 3 7 ["alpha", "", "be"] 0 =
        (["alpha", "", "be"].filter (fun t => !(t == ""))).map (fun t => t.take 3) :=
  ⟨(context_budget_packing ["alpha", "", "be"] 3 7).1,
   (context_budget_packing ["alpha", "", "be"] 3 7).2.2 (by decide)⟩

/-! ### Guard fail-open (C7) and the empty-query branch (C10) -/

/-- C7: if embedding the (stripped) query raises while a guard evaluates
a non-empty query, both guards resolve to the permissive outcome — the
domain guard decides `in_domain = true` (by keyword short-circuit,
`no_anchors`, or `embed_failed`, whichever branch is reached) and the
smalltalk matcher reports no match; both are total functions, so no
exception propagates to the caller. -/
theorem guard_fail_open (env : GuardEnv) (keywords : List String) (query : String)
    (thD thS : ℝ) (hq : ¬ pyStrip query = "")
    (hembed : env.embed (pyStrip query) = .error ()) :
    (DomainGuard.decide env keywords query thD).in_domain = true ∧
    SmalltalkMatcher.matchQuery env query thS = none := by
  constructor
  · unfold DomainGuard.decide
    dsimp only
    rw [if_neg hq]
    cases hfind : keywords.find? (fun kw =>
        !(kw == "") && strContains (kwNorm env (pyStrip query)).toList (kwNorm env kw).toList) with
    | some kw => simp [hfind]
    | none =>
      simp only [hfind]
      by_cases he : (loadAnchorEmbs env).isEmpty
      · simp [he]
      · simp [he, hembed]
  · unfold SmalltalkMatcher.matchQuery
    dsimp only
    rw [if_neg hq]
    by_cases he : (stQEmbeddings env).isEmpty
    · simp [he]
    · simp [he, hembed]

theorem guard_fail_open_witness :
    ¬ (pyStrip "hi" = "") ∧ guardEnvFail.embed (pyStrip "hi") = .error () ∧
      (DomainGuard.decide guardEnvFail [] "hi" 0).in_domain = true ∧
      SmalltalkMatcher.matchQuery guardEnvFail "hi" 0 = none :=
  ⟨by decide, rfl,
   (guard_fail_open guardEnvFail [] "hi" 0 0 (by decide) rfl).1,
   (guard_fail_open guardEnvFail [] "hi" 0 0 (by decide) rfl).2⟩

theorem smalltalk_match_trim_empty (env : GuardEnv) (q : String) (th : ℝ)
    (h : pyStrip q = "") : SmalltalkMatcher.matchQuery env q th = none := by
  unfold SmalltalkMatcher.matchQuery
  dsimp only
  rw [if_pos h]

theorem domain_decide_empty (env : GuardEnv) (keywords : List String) (q : String)
    (th : ℝ) (h : pyStrip q = "") :
    DomainGuard.decide env keywords q th = ⟨false, 0, none, "empty"⟩ := by
  unfold DomainGuard.decide
  dsimp only
  rw [if_pos h]

/-- C10: a query that is empty after stripping makes `DomainGuard.decide`
return `in_domain = false`, score `0.0`, reason `"empty"` (before any
embedding, so fail-open does not apply), and with the domain guard
enabled the pipeline returns the fixed out-of-domain message with no
sources — for every environment, hence without consulting the vector
store or the lexical index. -/
theorem empty_query_refused (cfg : RagConfig) (vcfg : VecConfig) (bcfg : BmConfig)
    (env : RagEnv) (user_query : String) (tk te : ℕ)
    (tenant_id branch_id : Option String)
    (hq : pyStrip user_query = "") (hg : cfg.ENABLE_DOMAIN_GUARD = true) :
    DomainGuard.decide env.guard cfg.DOMAIN_KEYWORDS user_query
        cfg.DOMAIN_ANCHOR_COSINE_THRESHOLD = ⟨false, 0, none, "empty"⟩ ∧
    query_with_incontext_ralm cfg vcfg bcfg env user_query tk te tenant_id branch_id
      = .ok (.answer cfg.OUT_OF_DOMAIN_MESSAGE []) := by
  refine ⟨domain_decide_empty _ _ _ _ hq, ?_⟩
  unfold query_with_incontext_ralm
  rw [show (if cfg.ENABLE_SMALLTALK then
      SmalltalkMatcher.matchQuery env.guard user_query cfg.SMALLTALK_COSINE_THRESHOLD
    else none) = none from by
    by_cases hs : cfg.ENABLE_SMALLTALK <;>
      simp [hs, smalltalk_match_trim_empty _ _ _ hq]]
  dsimp only
  rw [hg]
  rw [domain_decide_empty _ _ _ _ hq]
  simp

theorem empty_query_refused_witness :
    pyStrip "  " = "" ∧ ragCfgW.ENABLE_DOMAIN_GUARD = true ∧
      query_with_incontext_ralm ragCfgW vcfgReq bmCfgNodes ragEnvW "  " 5 3
        (some "t1") none = .ok (.answer ragCfgW.OUT_OF_DOMAIN_MESSAGE []) :=
  ⟨by decide, rfl,
   (empty_query_refused ragCfgW vcfgReq bmCfgNodes ragEnvW "  " 5 3 (some "t1") none
     (by decide) rfl).2⟩

/-! ### Tenant fail-closed BM25 state (C1) -/

/-- C1 (counterexample): with the empty string as tenant id — a
supplied, non-`None` tenant — in `nodes_file` mode, the per-tenant
nodes file is absent yet `get_bm25_state` does not build an empty
index: Python truthiness (`if tenant_id:`) routes the empty-string
tenant to the *global* persisted nodes corpus, here containing one
document. -/
theorem bm25_tenant_empty_string_leak :
    bmEnvCex.nodesFile (NodesKey.tenant "") = none ∧
    emptyBmCache (some "", none) = none ∧
    (get_bm25_state bmCfgNodes bmEnvCex emptyBmCache 800 (some "") none).n_docs = 1 :=
  ⟨rfl, rfl, rfl⟩

/-- C1 (amended): for a query with a *non-empty* tenant id, if the
per-(tenant,branch) persisted nodes corpus file does not exist or the
BM25 source mode is not the persisted nodes file (and no state is
cached yet for the key), `get_bm25_state` builds an empty index — zero
documents, no texts — and `bm25_retrieve` returns the empty list for
every query; in particular nothing is rebuilt from the global document
files and no other tenant's corpus is served. -/
theorem bm25_tenant_fail_closed (cfg : BmConfig) (env : BmEnv)
    (cache : Option String × Option String → Option BmState) (maxc : ℕ)
    (t : String) (branch_id : Option String)
    (hc : cache (some t, branch_id) = none)
    (h : ¬ cfg.BM25_SOURCE = "nodes_file" ∨
      (¬ t = "" ∧ env.nodesFile (cacheKeyFor (some t) branch_id) = none)) :
    (get_bm25_state cfg env cache maxc (some t) branch_id).index.N = 0 ∧
    (get_bm25_state cfg env cache maxc (some t) branch_id).texts = [] ∧
    (get_bm25_state cfg env cache maxc (some t) branch_id).n_docs = 0 ∧
    ∀ q k, bm25_retrieve cfg env cache q k maxc (some t) branch_id = [] := by
  have hstate : get_bm25_state cfg env cache maxc (some t) branch_id =
      mkBmState cfg [] [] [] none ∨
      get_bm25_state cfg env cache maxc (some t) branch_id =
      mkBmState cfg [] [] [] (some (cacheKeyFor (some t) branch_id)) := by
    unfold get_bm25_state
    rw [hc]
    by_cases hsrc : cfg.BM25_SOURCE = "nodes_file"
    · rcases h with h | ⟨ht, hf⟩
      · exact absurd hsrc h
      · right
        rw [hsrc]
        simp [hf]
    · left
      have : (cfg.BM25_SOURCE == "nodes_file") = false := by
        simp [hsrc]
      simp [this]
  have hcore : (get_bm25_state cfg env cache maxc (some t) branch_id).index =
      BM25Index.build cfg.BM25_K1 cfg.BM25_B [] ∧
      (get_bm25_state cfg env cache maxc (some t) branch_id).texts = [] ∧
      (get_bm25_state cfg env cache maxc (some t) branch_id).n_docs = 0 := by
    rcases hstate with h' | h' <;> rw [h'] <;> exact ⟨rfl, rfl, rfl⟩
  refine ⟨by rw [hcore.1]; rfl, hcore.2.1, hcore.2.2, ?_⟩
  intro q k
  unfold bm25_retrieve
  dsimp only
  rw [hcore.1, query_of_N_eq_zero _ rfl]
  rfl

theorem bm25_tenant_fail_closed_witness :
    emptyBmCache (some "t1", none) = none ∧
    bmEnvCex.nodesFile (cacheKeyFor (some "t1") none) = none ∧
    (get_bm25_state bmCfgNodes bmEnvCex emptyBmCache 800 (some "t1") none).n_docs = 0 ∧
    bm25_retrieve bmCfgNodes bmEnvCex emptyBmCache "hello" 5 800 (some "t1") none = [] :=
  ⟨rfl, rfl,
   (bm25_tenant_fail_closed bmCfgNodes bmEnvCex emptyBmCache 800 "t1" none rfl
     (Or.inr ⟨by decide, rfl⟩)).2.2.1,
   (bm25_tenant_fail_closed bmCfgNodes bmEnvCex emptyBmCache 800 "t1" none rfl
     (Or.inr ⟨by decide, rfl⟩)).2.2.2 "hello" 5⟩

/-! ### Characterising the fused dict (`addRanked`) -/

theorem updAt_fst (r : RItem) (add : ℚ) (e : FEntry) : (updAt r add e).1 = e.1 := by
  unfold updAt
  split <;> rfl

theorem addOne_present (r : RItem) (add : ℚ) :
    ∀ (d : List FEntry), (d.map Prod.fst).Nodup → _result_key r ∈ d.map Prod.fst →
      addOne r add d = d.map (updAt r add)
  | [], _, hmem => by simp at hmem
  | e :: es, hd, hmem => by
    rw [List.map_cons, List.nodup_cons] at hd
    by_cases he : e.1 = _result_key r
    · rw [addOne, if_pos (by simpa using he)]
      have hes : es.map (updAt r add) = es := by
        conv_rhs => rw [← List.map_id es]
        apply List.map_congr_left
        intro a ha
        unfold updAt
        rw [if_neg]
        · rfl
        · intro hak
          have hmm := List.mem_map_of_mem Prod.fst ha
          rw [hak, ← he] at hmm
          exact hd.1 hmm
      rw [List.map_cons, hes]
      unfold updAt
      rw [if_pos he]
    · rw [addOne, if_neg (by simpa using he), List.map_cons]
      have hmem' : _result_key r ∈ es.map Prod.fst := by
        rw [List.map_cons, List.mem_cons] at hmem
        rcases hmem with h | h
        · exact absurd h.symm he
        · exact h
      rw [addOne_present r add es hd.2 hmem']
      have hue : updAt r add e = e := by
        unfold updAt
        rw [if_neg he]
      rw [hue]

theorem addOne_absent (r : RItem) (add : ℚ) :
    ∀ (d : List FEntry), _result_key r ∉ d.map Prod.fst →
      addOne r add d = d ++ [mkEntry r add]
  | [], _ => rfl
  | e :: es, hmem => by
    have he : ¬ (e.1 == _result_key r) = true := by
      simp only [beq_iff_eq]
      intro h
      exact hmem (by simp [← h])
    rw [addOne, if_neg he, addOne_absent r add es (fun h => hmem (by simp [h]))]
    rfl

theorem keyFind_eq_none (k : String) :
    ∀ (rs : List RItem), k ∉ rs.map _result_key → keyFind rs k = none
  | [], _ => rfl
  | r :: rs, h => by
    have hne : ¬ _result_key r = k := fun hh => h (by simp [← hh])
    rw [keyFind, if_neg (by simpa using hne),
      keyFind_eq_none k rs (fun hm => h (by simp [hm]))]
    rfl

theorem passUpd_nil (w : ℚ) (K ρ : ℕ) (e : FEntry) : passUpd w K ρ [] e = e := rfl

theorem passUpd_not_mem (w : ℚ) (K ρ : ℕ) (rs : List RItem) (e : FEntry)
    (h : e.1 ∉ rs.map _result_key) : passUpd w K ρ rs e = e := by
  unfold passUpd
  rw [keyFind_eq_none _ _ h]

theorem passUpd_cons_hit (w : ℚ) (K ρ : ℕ) (r : RItem) (rs : List RItem) (e : FEntry)
    (h : _result_key r = e.1) :
    passUpd w K ρ (r :: rs) e = (e.1, updItem e.2 r (w * (1 / ((K : ℚ) + (ρ : ℚ))))) := by
  unfold passUpd keyFind
  rw [if_pos (by simpa using h)]
  dsimp only
  rw [Nat.add_zero]

theorem passUpd_cons_miss (w : ℚ) (K ρ : ℕ) (r : RItem) (rs : List RItem) (e : FEntry)
    (h : ¬ _result_key r = e.1) :
    passUpd w K ρ (r :: rs) e = passUpd w K (ρ + 1) rs e := by
  unfold passUpd
  rw [show keyFind (r :: rs) e.1 = (keyFind rs e.1).map (fun p => (p.1 + 1, p.2)) from by
    simp [keyFind, h]]
  cases hkf : keyFind rs e.1 with
  | none => simp
  | some p =>
    simp only [Option.map_some']
    have h2 : ρ + (p.1 + 1) = (ρ + 1) + p.1 := by omega
    rw [h2]

theorem freshEntries_cons_in (w : ℚ) (K : ℕ) (r : RItem) (rs : List RItem)
    (ρ : ℕ) (seen : List String) (h : _result_key r ∈ seen) :
    freshEntries w K (r :: rs) ρ seen = freshEntries w K rs (ρ + 1) seen := by
  rw [freshEntries, if_pos (by simp [List.contains, h])]

theorem freshEntries_cons_notin (w : ℚ) (K : ℕ) (r : RItem) (rs : List RItem)
    (ρ : ℕ) (seen : List String) (h : _result_key r ∉ seen) :
    freshEntries w K (r :: rs) ρ seen =
      mkEntry r (w * (1 / ((K : ℚ) + (ρ : ℚ)))) ::
        freshEntries w K rs (ρ + 1) (seen ++ [_result_key r]) := by
  rw [freshEntries, if_neg (by simp [List.contains, h])]

theorem addRanked_eq (w : ℚ) (K : ℕ) :
    ∀ (rs : List RItem) (ρ : ℕ) (d : List FEntry),
      (rs.map _result_key).Nodup → (d.map Prod.fst).Nodup →
      addRanked w K rs ρ d =
        d.map (passUpd w K ρ rs) ++ freshEntries w K rs ρ (d.map Prod.fst)
  | [], ρ, d, _, _ => by
    rw [addRanked, freshEntries, List.append_nil]
    conv_lhs => rw [← List.map_id d]
    apply List.map_congr_left
    intro a _
    rfl
  | r :: rs, ρ, d, hnd, hd => by
    rw [addRanked]
    rw [List.map_cons, List.nodup_cons] at hnd
    by_cases hmem : _result_key r ∈ d.map Prod.fst
    · rw [addOne_present r _ d hd hmem]
      have hfst : (d.map (updAt r (w * (1 / ((K : ℚ) + (ρ : ℚ)))))).map Prod.fst =
          d.map Prod.fst := by
        rw [List.map_map]
        apply List.map_congr_left
        intro a _
        exact updAt_fst ..
      rw [addRanked_eq w K rs (ρ + 1) _ hnd.2 (by rw [hfst]; exact hd), hfst,
        ← freshEntries_cons_in w K r rs ρ _ hmem]
      congr 1
      rw [List.map_map]
      apply List.map_congr_left
      intro e he'
      show passUpd w K (ρ + 1) rs (updAt r (w * (1 / ((K : ℚ) + (ρ : ℚ)))) e) =
        passUpd w K ρ (r :: rs) e
      by_cases hek : e.1 = _result_key r
      · rw [updAt, if_pos hek, passUpd_cons_hit w K ρ r rs e hek.symm]
        apply passUpd_not_mem
        show e.1 ∉ rs.map _result_key
        rw [hek]
        exact hnd.1
      · rw [updAt, if_neg hek, passUpd_cons_miss w K ρ r rs e (fun hh => hek hh.symm)]
    · rw [addOne_absent r _ d hmem]
      have hfst2 : ((d ++ [mkEntry r (w * (1 / ((K : ℚ) + (ρ : ℚ))))]).map Prod.fst) =
          d.map Prod.fst ++ [_result_key r] := by
        simp [mkEntry]
      have hd2 : ((d ++ [mkEntry r (w * (1 / ((K : ℚ) + (ρ : ℚ))))]).map Prod.fst).Nodup := by
        rw [hfst2]
        simp only [List.nodup_append, List.nodup_cons, List.not_mem_nil, not_false_iff,
          List.nodup_nil, and_true, true_and]
        constructor
        · exact hd
        · intro a ha hmm
          rcases List.mem_singleton.mp hmm with h
          rw [h] at ha
          exact hmem ha
      rw [addRanked_eq w K rs (ρ + 1) _ hnd.2 hd2, hfst2,
        freshEntries_cons_notin w K r rs ρ _ hmem, List.map_append]
      have hmk : (List.map (passUpd w K (ρ + 1) rs)
          [mkEntry r (w * (1 / ((K : ℚ) + (ρ : ℚ))))]) =
          [mkEntry r (w * (1 / ((K : ℚ) + (ρ : ℚ))))] := by
        rw [List.map_singleton]
        congr 1
        apply passUpd_not_mem
        show (mkEntry r _).1 ∉ rs.map _result_key
        exact hnd.1
      rw [hmk]
      have hdmap : d.map (passUpd w K (ρ + 1) rs) = d.map (passUpd w K ρ (r :: rs)) := by
        apply List.map_congr_left
        intro e he'
        have hek : ¬ _result_key r = e.1 := by
          intro hh
          exact hmem (hh ▸ List.mem_map_of_mem Prod.fst he')
        rw [passUpd_cons_miss w K ρ r rs e hek]
      rw [hdmap, List.append_assoc, List.singleton_append]

theorem passUpd_fst (w : ℚ) (K ρ : ℕ) (rs : List RItem) (e : FEntry) :
    (passUpd w K ρ rs e).1 = e.1 := by
  unfold passUpd
  cases keyFind rs e.1 with
  | none => rfl
  | some p => rfl

theorem rankedFresh_map_fst (w : ℚ) (K : ℕ) :
    ∀ (rs : List RItem) (ρ : ℕ),
      (rankedFresh w K rs ρ).map Prod.fst = rs.map _result_key
  | [], _ => rfl
  | r :: rs, ρ => by
    rw [rankedFresh, List.map_cons, List.map_cons, rankedFresh_map_fst w K rs (ρ + 1)]
    rfl

theorem rankedFresh_mem (w : ℚ) (K : ℕ) :
    ∀ (rs : List RItem) (ρ : ℕ) (e : FEntry), e ∈ rankedFresh w K rs ρ →
      ∃ j, ∃ hj : j < rs.length,
        e = mkEntry (rs.get ⟨j, hj⟩) (w * (1 / ((K : ℚ) + (((ρ + j : ℕ)) : ℚ))))
  | [], _, e, he => by simp [rankedFresh] at he
  | r :: rs, ρ, e, he => by
    rw [rankedFresh, List.mem_cons] at he
    rcases he with he | he
    · exact ⟨0, by simp, by simpa using he⟩
    · obtain ⟨j, hj, hed⟩ := rankedFresh_mem w K rs (ρ + 1) e he
      refine ⟨j + 1, by simpa using hj, ?_⟩
      rw [hed]
      have : (ρ + 1) + j = ρ + (j + 1) := by omega
      rw [this]
      rfl

theorem rankedFresh_getElem (w : ℚ) (K : ℕ) :
    ∀ (rs : List RItem) (ρ j : ℕ) (hj : j < rs.length)
      (hj2 : j < (rankedFresh w K rs ρ).length),
      (rankedFresh w K rs ρ).get ⟨j, hj2⟩ =
        mkEntry (rs.get ⟨j, hj⟩) (w * (1 / ((K : ℚ) + (((ρ + j : ℕ)) : ℚ))))
  | [], _, j, hj, _ => by simp at hj
  | r :: rs, ρ, 0, hj, hj2 => rfl
  | r :: rs, ρ, j + 1, hj, hj2 => by
    have hj' : j < rs.length := by simpa using hj
    have hcons : rankedFresh w K (r :: rs) ρ =
        mkEntry r (w * (1 / ((K : ℚ) + (ρ : ℚ)))) :: rankedFresh w K rs (ρ + 1) := rfl
    have hj2' : j < (rankedFresh w K rs (ρ + 1)).length := by
      rw [hcons] at hj2
      simpa using hj2
    show (rankedFresh w K rs (ρ + 1)).get ⟨j, hj2'⟩ = _
    rw [rankedFresh_getElem w K rs (ρ + 1) j hj' hj2']
    have hρ : (ρ + 1) + j = ρ + (j + 1) := by omega
    rw [hρ]
    rfl

theorem freshEntries_fst_not_mem (w : ℚ) (K : ℕ) :
    ∀ (rs : List RItem) (ρ : ℕ) (seen : List String) (x : String), x ∈ seen →
      x ∉ (freshEntries w K rs ρ seen).map Prod.fst
  | [], _, _, _, _ => by simp [freshEntries]
  | r :: rs, ρ, seen, x, hx => by
    by_cases hm : _result_key r ∈ seen
    · rw [freshEntries_cons_in w K r rs ρ seen hm]
      exact freshEntries_fst_not_mem w K rs (ρ + 1) seen x hx
    · rw [freshEntries_cons_notin w K r rs ρ seen hm, List.map_cons]
      intro hmem
      rcases List.mem_cons.mp hmem with h | h
      · exact hm (by rw [show (mkEntry r (w * (1 / ((K : ℚ) + (ρ : ℚ))))).1 = _result_key r
          from rfl] at h; rw [← h]; exact hx)
      · exact freshEntries_fst_not_mem w K rs (ρ + 1) (seen ++ [_result_key r]) x
          (by simp [hx]) h

theorem freshEntries_eq_rankedFresh (w : ℚ) (K : ℕ) :
    ∀ (rs : List RItem) (ρ : ℕ) (seen : List String),
      (rs.map _result_key).Nodup → (∀ r ∈ rs, _result_key r ∉ seen) →
      freshEntries w K rs ρ seen = rankedFresh w K rs ρ
  | [], _, _, _, _ => rfl
  | r :: rs, ρ, seen, hnd, hdisj => by
    rw [List.map_cons, List.nodup_cons] at hnd
    rw [freshEntries_cons_notin w K r rs ρ seen (hdisj r (by simp)), rankedFresh]
    congr 1
    apply freshEntries_eq_rankedFresh w K rs (ρ + 1) _ hnd.2
    intro a ha
    rw [List.mem_append]
    rintro (h | h)
    · exact hdisj a (by simp [ha]) h
    · rcases List.mem_singleton.mp h with h
      exact hnd.1 (h ▸ List.mem_map_of_mem _result_key ha)

theorem keyFind_of_getElem :
    ∀ (rs : List RItem) (k : String) (j : ℕ) (hj : j < rs.length),
      (rs.map _result_key).Nodup → _result_key (rs.get ⟨j, hj⟩) = k →
      keyFind rs k = some (j, rs.get ⟨j, hj⟩)
  | [], _, j, hj, _, _ => by simp at hj
  | r :: rs, k, 0, hj, _, hk => by
    rw [keyFind, if_pos (by simpa using hk)]
    rfl
  | r :: rs, k, j + 1, hj, hnd, hk => by
    rw [List.map_cons, List.nodup_cons] at hnd
    have hj' : j < rs.length := by simpa using hj
    have hget : (r :: rs).get ⟨j + 1, hj⟩ = rs.get ⟨j, hj'⟩ := rfl
    rw [hget] at hk
    have hne : ¬ _result_key r = k := by
      intro hh
      exact hnd.1 (hh.symm ▸ hk ▸ List.mem_map_of_mem _result_key (rs.get_mem _ _))
    rw [keyFind, if_neg (by simpa using hne),
      keyFind_of_getElem rs k j hj' hnd.2 hk]
    rfl

/-- The fused dict after both passes, in closed form: the vector pass
creates one fresh entry per item (ranks from 1), the lexical pass
updates matching entries in place and appends the rest. -/
theorem fuseEntries_eq (alpha : ℚ) (K : ℕ) (vec bm : List RItem)
    (hv : (vec.map _result_key).Nodup) (hb : (bm.map _result_key).Nodup) :
    fuseEntries alpha K vec bm =
      (rankedFresh alpha K vec 1).map (passUpd (1 - alpha) K 1 bm) ++
        freshEntries (1 - alpha) K bm 1 (vec.map _result_key) := by
  unfold fuseEntries
  have h1 : addRanked alpha K vec 1 [] = rankedFresh alpha K vec 1 := by
    rw [addRanked_eq alpha K vec 1 [] hv (by simp)]
    simp only [List.map_nil, List.nil_append]
    exact freshEntries_eq_rankedFresh alpha K vec 1 [] hv (by simp)
  rw [h1, addRanked_eq (1 - alpha) K bm 1 _ hb
    (by rw [rankedFresh_map_fst]; exact hv), rankedFresh_map_fst]

theorem passUpd_of_keyFind_some (w : ℚ) (K ρ : ℕ) (rs : List RItem) (e : FEntry)
    (j' : ℕ) (r' : RItem) (h : keyFind rs e.1 = some (j', r')) :
    passUpd w K ρ rs e =
      (e.1, updItem e.2 r' (w * (1 / ((K : ℚ) + (((ρ + j' : ℕ)) : ℚ))))) := by
  unfold passUpd
  rw [h]

theorem countP_fst_eq (k : String) (L : List FEntry) :
    L.countP (fun e => e.1 == k) = (L.map Prod.fst).countP (fun x => x == k) := by
  rw [List.countP_map]
  rfl

/-- C3: for ranked lists with pairwise-distinct identity keys and a
valid alpha, an item whose key appears at 1-based rank `i` in the
vector list and rank `j` in the lexical list occurs exactly once in
the fused ranking, with fused score
`alpha * 1/(rrfK+i) + (1-alpha) * 1/(rrfK+j)` — the sum of its two
weighted reciprocal-rank contributions.  (`_hybrid_fuse` returns this
ranking truncated to `final_top_k`, which can only remove the entry,
never duplicate it.) -/
theorem hybrid_fuse_dedup (alpha : ℚ) (rrfK : ℕ) (vec bm : List RItem) (k : String)
    (i j : ℕ) (hα : 0 ≤ alpha ∧ alpha ≤ 1)
    (hv : (vec.map _result_key).Nodup) (hb : (bm.map _result_key).Nodup)
    (hi1 : 1 ≤ i) (hi : i - 1 < vec.length)
    (hj1 : 1 ≤ j) (hj : j - 1 < bm.length)
    (hki : _result_key (vec.get ⟨i - 1, hi⟩) = k)
    (hkj : _result_key (bm.get ⟨j - 1, hj⟩) = k) :
    ((fusedRanking (effAlpha alpha) rrfK vec bm).countP (fun e => e.1 == k)) = 1 ∧
    ∀ e ∈ fusedRanking (effAlpha alpha) rrfK vec bm, e.1 = k →
      e.2.score = alpha * (1 / ((rrfK : ℚ) + (i : ℚ))) +
        (1 - alpha) * (1 / ((rrfK : ℚ) + (j : ℚ))) := by
  have heff : effAlpha alpha = alpha := by
    unfold effAlpha
    rw [if_pos hα]
  rw [heff]
  have hperm : List.Perm (fusedRanking alpha rrfK vec bm)
      (fuseEntries alpha rrfK vec bm) :=
    List.mergeSort_perm _ _
  have hE := fuseEntries_eq alpha rrfK vec bm hv hb
  have hkmem : k ∈ vec.map _result_key :=
    hki ▸ List.mem_map_of_mem _result_key (vec.get_mem _ _)
  constructor
  · rw [hperm.countP_eq, hE, List.countP_append]
    have h1 : ((rankedFresh alpha rrfK vec 1).map
        (passUpd (1 - alpha) rrfK 1 bm)).countP (fun e => e.1 == k) = 1 := by
      rw [countP_fst_eq, List.map_map]
      have hcomp : ((rankedFresh alpha rrfK vec 1).map
          (Prod.fst ∘ passUpd (1 - alpha) rrfK 1 bm)) =
          (rankedFresh alpha rrfK vec 1).map Prod.fst := by
        apply List.map_congr_left
        intro a _
        exact passUpd_fst ..
      rw [hcomp, rankedFresh_map_fst]
      show (vec.map _result_key).count k = 1
      exact List.count_eq_one_of_mem hv hkmem
    have h2 : (freshEntries (1 - alpha) rrfK bm 1
        (vec.map _result_key)).countP (fun e => e.1 == k) = 0 := by
      rw [countP_fst_eq]
      show (List.map Prod.fst _).count k = 0
      rw [List.count_eq_zero]
      exact freshEntries_fst_not_mem (1 - alpha) rrfK bm 1 _ k hkmem
    rw [h1, h2]
  · intro e he hek
    rw [hperm.mem_iff, hE, List.mem_append] at he
    rcases he with he | he
    · obtain ⟨a, ha, hea⟩ := List.mem_map.mp he
      obtain ⟨t, ht, hat⟩ := rankedFresh_mem alpha rrfK vec 1 a ha
      have hafst : a.1 = _result_key (vec.get ⟨t, ht⟩) := by
        rw [hat]
        rfl
      have hak : a.1 = k := by
        rw [← hea, passUpd_fst] at hek
        exact hek
      have hteq : t = i - 1 := by
        have h1 : (vec.map _result_key).get ⟨t, by simpa using ht⟩ =
            (vec.map _result_key).get ⟨i - 1, by simpa using hi⟩ := by
          rw [List.get_map, List.get_map]
          rw [← hafst, hak, hki]
        have := (hv.get_inj_iff).mp h1
        simpa using this
      subst hteq
      have hkf : keyFind bm a.1 = some (j - 1, bm.get ⟨j - 1, hj⟩) := by
        rw [hak]
        exact keyFind_of_getElem bm k (j - 1) hj hb hkj
      rw [← hea, passUpd_of_keyFind_some (1 - alpha) rrfK 1 bm a (j - 1) _ hkf]
      show (updItem a.2 _ _).score = _
      have hscore : a.2.score = alpha * (1 / ((rrfK : ℚ) + (((1 + (i - 1) : ℕ)) : ℚ))) := by
        rw [hat]
        rfl
      have hii : (1 + (i - 1) : ℕ) = i := by omega
      have hjj : (1 + (j - 1) : ℕ) = j := by omega
      unfold updItem
      dsimp only
      rw [hscore, hii, hjj]
    · exfalso
      have : e.1 ∈ (freshEntries (1 - alpha) rrfK bm 1
          (vec.map _result_key)).map Prod.fst := List.mem_map_of_mem Prod.fst he
      rw [hek] at this
      exact freshEntries_fst_not_mem (1 - alpha) rrfK bm 1 _ k hkmem this

theorem fEntryGE_trans (a b c : FEntry) (h1 : fEntryGE a b = true)
    (h2 : fEntryGE b c = true) : fEntryGE a c = true := by
  simp only [fEntryGE, decide_eq_true_eq] at h1 h2 ⊢
  exact le_trans h2 h1

theorem fEntryGE_total (a b : FEntry) : fEntryGE a b || fEntryGE b a := by
  simp only [fEntryGE, decide_eq_true_eq, Bool.or_eq_true]
  exact le_total b.2.score a.2.score

theorem passUpd_zero_score (K ρ : ℕ) (rs : List RItem) (e : FEntry) :
    (passUpd 0 K ρ rs e).2.score = e.2.score := by
  unfold passUpd
  cases keyFind rs e.1 with
  | none => rfl
  | some p =>
    show (updItem e.2 p.2 _).score = e.2.score
    unfold updItem
    dsimp only
    rw [zero_mul, add_zero]

theorem passUpd_text (w : ℚ) (K ρ : ℕ) (rs : List RItem) (e : FEntry) :
    (passUpd w K ρ rs e).2.text = e.2.text := by
  unfold passUpd
  cases keyFind rs e.1 with
  | none => rfl
  | some p => rfl

theorem rankedFresh_score_of_mem (w : ℚ) (K : ℕ) (rs : List RItem) (ρ : ℕ)
    (e : FEntry) (he : e ∈ rankedFresh w K rs ρ) :
    ∃ m, ρ ≤ m ∧ e.2.score = w * (1 / ((K : ℚ) + (m : ℚ))) := by
  obtain ⟨j, hj, hat⟩ := rankedFresh_mem w K rs ρ e he
  exact ⟨ρ + j, by omega, by rw [hat]; rfl⟩

theorem freshEntries_zero_score (K : ℕ) :
    ∀ (rs : List RItem) (ρ : ℕ) (seen : List String) (e : FEntry),
      e ∈ freshEntries 0 K rs ρ seen → e.2.score = 0
  | [], _, _, _, he => by simp [freshEntries] at he
  | r :: rs, ρ, seen, e, he => by
    by_cases hm : _result_key r ∈ seen
    · rw [freshEntries_cons_in 0 K r rs ρ seen hm] at he
      exact freshEntries_zero_score K rs (ρ + 1) seen e he
    · rw [freshEntries_cons_notin 0 K r rs ρ seen hm, List.mem_cons] at he
      rcases he with he | he
      · rw [he]
        show (0 : ℚ) * _ = 0
        rw [zero_mul]
      · exact freshEntries_zero_score K rs (ρ + 1) _ e he

/-- Extracting a strictly-descending block from a sorted permutation:
if `M` is sorted (weakly descending), is a permutation of `B ++ E`,
`B` is strictly descending and every `B` score exceeds every `E` score,
then `M` starts with `B` itself. -/
theorem sorted_perm_extract :
    ∀ (B M E : List FEntry), List.Perm M (B ++ E) →
      M.Pairwise (fun a b => b.2.score ≤ a.2.score) →
      B.Pairwise (fun a b => b.2.score < a.2.score) →
      (∀ a ∈ B, ∀ e ∈ E, e.2.score < a.2.score) →
      ∃ M', M = B ++ M' ∧ List.Perm M' E
  | [], M, E, hperm, _, _, _ => ⟨M, rfl, by simpa using hperm⟩
  | a :: B, M, E, hperm, hM, hB, hcross => by
    cases M with
    | nil =>
      exfalso
      have := hperm.symm.length_eq
      simp at this
    | cons m Mt =>
      have hma : m = a := by
        have hmem : m ∈ a :: (B ++ E) := by
          have h0 : m ∈ (a :: B) ++ E := hperm.mem_iff.mp (by simp)
          simpa using h0
        rcases List.mem_cons.mp hmem with h | h
        · exact h
        · exfalso
          have hsa : m.2.score < a.2.score := by
            rcases List.mem_append.mp h with hB' | hE'
            · exact List.rel_of_pairwise_cons hB hB'
            · exact hcross a (by simp) m hE'
          have haM : a ∈ m :: Mt := hperm.symm.mem_iff.mp (by simp)
          rcases List.mem_cons.mp haM with h' | h'
          · rw [h'] at hsa
            exact lt_irrefl _ hsa
          · exact absurd hsa (not_lt.mpr (List.rel_of_pairwise_cons hM h'))
      subst hma
      have hpermt : List.Perm Mt (B ++ E) :=
        (List.perm_cons m).mp (by simpa using hperm)
      obtain ⟨M', hM', hpermE⟩ := sorted_perm_extract B Mt E hpermt
        (List.Pairwise.of_cons hM) (List.Pairwise.of_cons hB)
        (fun b hb e heE => hcross b (List.mem_cons_of_mem _ hb) e heE)
      exact ⟨M', by rw [List.cons_append, hM'], hpermE⟩

theorem rankedFresh_length (w : ℚ) (K : ℕ) :
    ∀ (rs : List RItem) (ρ : ℕ), (rankedFresh w K rs ρ).length = rs.length
  | [], _ => rfl
  | r :: rs, ρ => by
    show (rankedFresh w K rs (ρ + 1)).length + 1 = rs.length + 1
    rw [rankedFresh_length w K rs (ρ + 1)]

theorem rankedFresh_map_text (w : ℚ) (K : ℕ) :
    ∀ (rs : List RItem) (ρ : ℕ),
      (rankedFresh w K rs ρ).map (fun e => e.2.text) = rs.map RItem.text
  | [], _ => rfl
  | r :: rs, ρ => by
    show _ :: (rankedFresh w K rs (ρ + 1)).map (fun e => e.2.text) = _
    rw [rankedFresh_map_text w K rs (ρ + 1)]
    rfl

theorem rankedFresh_pairwise (w : ℚ) (hw : 0 < w) (K : ℕ) :
    ∀ (rs : List RItem) (ρ : ℕ), 0 < K + ρ →
      (rankedFresh w K rs ρ).Pairwise (fun a b => b.2.score < a.2.score)
  | [], _, _ => List.Pairwise.nil
  | r :: rs, ρ, hKρ => by
    show List.Pairwise _ (_ :: rankedFresh w K rs (ρ + 1))
    constructor
    · intro b hb
      obtain ⟨m, hm, hbs⟩ := rankedFresh_score_of_mem w K rs (ρ + 1) b hb
      rw [hbs]
      show w * (1 / ((K : ℚ) + (m : ℚ))) < w * (1 / ((K : ℚ) + (ρ : ℚ)))
      apply mul_lt_mul_of_pos_left _ hw
      have h1 : (0 : ℚ) < (K : ℚ) + (ρ : ℚ) := by exact_mod_cast hKρ
      have h2 : ((K : ℚ) + (ρ : ℚ)) < ((K : ℚ) + (m : ℚ)) := by
        have hm' : K + ρ < K + m := by omega
        exact_mod_cast hm'
      exact one_div_lt_one_div_of_lt h1 h2
    · exact rankedFresh_pairwise w hw K rs (ρ + 1) (by omega)

theorem rankedFresh_score_pos (w : ℚ) (hw : 0 < w) (K : ℕ) (rs : List RItem)
    (ρ : ℕ) (hKρ : 0 < K + ρ) (e : FEntry) (he : e ∈ rankedFresh w K rs ρ) :
    0 < e.2.score := by
  obtain ⟨m, hm, hes⟩ := rankedFresh_score_of_mem w K rs ρ e he
  rw [hes]
  apply mul_pos hw
  apply one_div_pos.mpr
  have hKm : 0 < K + m := by omega
  exact_mod_cast hKm

theorem sorted_fusedRanking (alpha : ℚ) (K : ℕ) (vec bm : List RItem) :
    (fusedRanking alpha K vec bm).Pairwise (fun a b => b.2.score ≤ a.2.score) := by
  have h := List.sorted_mergeSort fEntryGE_trans fEntryGE_total
    (fuseEntries alpha K vec bm)
  apply h.imp
  intro a b hab
  simpa [fEntryGE, decide_eq_true_eq] using hab

/-- The `alpha = 1` fused ranking starts with the vector entries in
vector order (lexical-only entries, carrying score `0.0`, follow). -/
theorem fusedRanking_alpha_one (K : ℕ) (vec bm : List RItem)
    (hv : (vec.map _result_key).Nodup) (hb : (bm.map _result_key).Nodup) :
    ∃ M', fusedRanking 1 K vec bm =
      (rankedFresh 1 K vec 1).map (passUpd 0 K 1 bm) ++ M' := by
  have hzero : (1 : ℚ) - 1 = 0 := by norm_num
  have hE := fuseEntries_eq 1 K vec bm hv hb
  rw [hzero] at hE
  have hperm : List.Perm (fusedRanking 1 K vec bm)
      ((rankedFresh 1 K vec 1).map (passUpd 0 K 1 bm) ++
        freshEntries 0 K bm 1 (vec.map _result_key)) := by
    rw [← hE]
    exact List.mergeSort_perm _ _
  have hB : ((rankedFresh 1 K vec 1).map (passUpd 0 K 1 bm)).Pairwise
      (fun a b => b.2.score < a.2.score) := by
    rw [List.pairwise_map]
    apply (rankedFresh_pairwise 1 one_pos K vec 1 (by omega)).imp
    intro a b hab
    rwa [passUpd_zero_score, passUpd_zero_score]
  have hcross : ∀ a ∈ (rankedFresh 1 K vec 1).map (passUpd 0 K 1 bm),
      ∀ e ∈ freshEntries 0 K bm 1 (vec.map _result_key), e.2.score < a.2.score := by
    intro a ha e he
    obtain ⟨a0, ha0, ha0a⟩ := List.mem_map.mp ha
    rw [freshEntries_zero_score K bm 1 _ e he, ← ha0a, passUpd_zero_score]
    exact rankedFresh_score_pos 1 one_pos K vec 1 (by omega) a0 ha0
  obtain ⟨M', hM', _⟩ := sorted_perm_extract _ _ _ hperm
    (sorted_fusedRanking 1 K vec bm) hB hcross
  exact ⟨M', hM'⟩

theorem lookup_mem :
    ∀ (d : List FEntry) (k : String) (it : FItem),
      d.lookup k = some it → (k, it) ∈ d
  | [], _, _, h => by simp at h
  | (k', b) :: es, k, it, h => by
    rw [List.lookup_cons] at h
    by_cases hk : (k == k') = true
    · rw [hk] at h
      have h' : some b = some it := h
      rcases Option.some_injective _ h' with rfl
      have hkk : k = k' := by simpa using hk
      rw [hkk]
      exact List.mem_cons_self _ _
    · rw [Bool.not_eq_true] at hk
      rw [hk] at h
      have h' : es.lookup k = some it := h
      exact List.mem_cons_of_mem _ (lookup_mem es k it h')

theorem lookup_of_mem_nodup :
    ∀ (d : List FEntry), (d.map Prod.fst).Nodup →
      ∀ (k : String) (it : FItem), (k, it) ∈ d → d.lookup k = some it
  | [], _, _, _, h => by simp at h
  | (k', b) :: es, hd, k, it, h => by
    rw [List.map_cons, List.nodup_cons] at hd
    rcases List.mem_cons.mp h with h | h
    · rcases Prod.mk.injEq .. ▸ h with ⟨h1, h2⟩
      rw [List.lookup_cons, show (k == k') = true from by simp [h1], h2]
    · have hkes : k ∈ es.map Prod.fst := by
        have := List.mem_map_of_mem Prod.fst h
        simpa using this
      have hne : (k == k') = false := by
        simp only [beq_eq_false_iff_ne, ne_eq]
        intro hh
        rw [hh] at hkes
        exact hd.1 hkes
      rw [List.lookup_cons, hne]
      exact lookup_of_mem_nodup es hd.2 k it h

theorem lookup_none_of_not_mem :
    ∀ (d : List FEntry) (k : String), k ∉ d.map Prod.fst → d.lookup k = none
  | [], _, _ => rfl
  | (k', b) :: es, k, h => by
    have hne : (k == k') = false := by
      simp only [beq_eq_false_iff_ne, ne_eq]
      intro hh
      exact h (by simp [hh])
    rw [List.lookup_cons, hne]
    exact lookup_none_of_not_mem es k (fun hm => h (by simp [hm]))

theorem lookup_map_updAt_ne (r : RItem) (add : ℚ) (k : String)
    (hk : ¬ k = _result_key r) :
    ∀ (d : List FEntry), (d.map (updAt r add)).lookup k = d.lookup k
  | [] => rfl
  | e :: es => by
    have hfst : updAt r add e = ((updAt r add e).1, (updAt r add e).2) := rfl
    have hee : e = (e.1, e.2) := rfl
    rw [List.map_cons, hfst, hee, List.lookup_cons, List.lookup_cons, updAt_fst]
    by_cases he : (k == e.1) = true
    · rw [he]
      have hne : ¬ e.1 = _result_key r := by
        intro hh
        exact hk (by rw [← hh]; simpa using he)
      show some (updAt r add e).2 = some e.2
      unfold updAt
      rw [if_neg hne]
    · rw [Bool.not_eq_true] at he
      rw [he]
      exact lookup_map_updAt_ne r add k hk es

theorem lookup_append_sing_ne (en : FEntry) (k : String) (h : ¬ k = en.1) :
    ∀ (d : List FEntry), (d ++ [en]).lookup k = d.lookup k
  | [] => by
    have hen : en = (en.1, en.2) := rfl
    rw [List.nil_append, hen, List.lookup_cons,
      show (k == en.1) = false from by simpa using h]
  | e :: es => by
    have hee : e = (e.1, e.2) := rfl
    rw [List.cons_append, hee, List.lookup_cons, List.lookup_cons]
    by_cases he : (k == e.1) = true
    · rw [he]
    · rw [Bool.not_eq_true] at he
      rw [he]
      exact lookup_append_sing_ne en k h es

theorem bmTarget_congr (w : ℚ) (K : ℕ) :
    ∀ (rs : List RItem) (rank : ℕ) (d₁ d₂ : List FEntry),
      (∀ r ∈ rs, d₁.lookup (_result_key r) = d₂.lookup (_result_key r)) →
      bmTarget w K d₁ rs rank = bmTarget w K d₂ rs rank
  | [], _, _, _, _ => rfl
  | r :: rs, rank, d₁, d₂, h => by
    rw [bmTarget, bmTarget, h r (by simp),
      bmTarget_congr w K rs (rank + 1) d₁ d₂ (fun a ha => h a (by simp [ha]))]

theorem contains_eq_false_of_not_mem {l : List String} {a : String} (h : a ∉ l) :
    l.contains a = false := by
  simpa using h

theorem addRanked_perm_bmTarget (w : ℚ) (K : ℕ) :
    ∀ (rs : List RItem) (ρ : ℕ) (d : List FEntry),
      (rs.map _result_key).Nodup → (d.map Prod.fst).Nodup →
      List.Perm (addRanked w K rs ρ d)
        (bmTarget w K d rs ρ ++
          d.filter (fun e => !((rs.map _result_key).contains e.1)))
  | [], ρ, d, _, _ => by
    rw [addRanked, bmTarget, List.nil_append]
    have hfe : d.filter (fun e => !(([] : List RItem).map _result_key).contains e.1) = d :=
      List.filter_eq_self.mpr (fun a _ => by simp)
    rw [hfe]
  | r :: rs, ρ, d, hnd, hd => by
    rw [List.map_cons, List.nodup_cons] at hnd
    rw [addRanked]
    have hcontr : ((rs.map _result_key).contains (_result_key r)) = false :=
      contains_eq_false_of_not_mem hnd.1
    by_cases hmem : _result_key r ∈ d.map Prod.fst
    · obtain ⟨en, hen, henk⟩ : ∃ en ∈ d, en.1 = _result_key r := by
        obtain ⟨en, hen, hk⟩ := List.mem_map.mp hmem
        exact ⟨en, hen, hk⟩
      rw [addOne_present r _ d hd hmem]
      have hfstmap : ((d.map (updAt r (w * (1 / ((K : ℚ) + (ρ : ℚ)))))).map Prod.fst) =
          d.map Prod.fst := by
        rw [List.map_map]
        apply List.map_congr_left
        intro a _
        exact updAt_fst ..
      have hperm := addRanked_perm_bmTarget w K rs (ρ + 1)
        (d.map (updAt r (w * (1 / ((K : ℚ) + (ρ : ℚ)))))) hnd.2
        (by rw [hfstmap]; exact hd)
      refine hperm.trans ?_
      have hbt : bmTarget w K (d.map (updAt r (w * (1 / ((K : ℚ) + (ρ : ℚ)))))) rs (ρ + 1) =
          bmTarget w K d rs (ρ + 1) := by
        apply bmTarget_congr
        intro a ha
        apply lookup_map_updAt_ne
        intro hh
        exact hnd.1 (hh ▸ List.mem_map_of_mem _result_key ha)
      rw [hbt]
      obtain ⟨da, db, hsplit⟩ := List.append_of_mem hen
      have hfd : d.map Prod.fst = da.map Prod.fst ++ en.1 :: db.map Prod.fst := by
        rw [hsplit]
        simp
      have hdd := hd
      rw [hfd, List.nodup_append] at hdd
      have hnotda : _result_key r ∉ da.map Prod.fst := by
        intro hin
        exact hdd.2.2 hin (by rw [henk] at *; exact List.mem_cons_self _ _)
      have hnotdb : _result_key r ∉ db.map Prod.fst := by
        have := (List.nodup_cons.mp hdd.2.1).1
        rw [henk] at this
        exact this
      have hmapd : d.map (updAt r (w * (1 / ((K : ℚ) + (ρ : ℚ))))) =
          da ++ (en.1, updItem en.2 r (w * (1 / ((K : ℚ) + (ρ : ℚ))))) :: db := by
        rw [hsplit, List.map_append, List.map_cons]
        congr 1
        · conv_rhs => rw [← List.map_id da]
          apply List.map_congr_left
          intro a ha
          unfold updAt
          rw [if_neg]
          · rfl
          · intro hh
            exact hnotda (hh ▸ List.mem_map_of_mem Prod.fst ha)
        · congr 1
          · unfold updAt
            rw [if_pos henk]
          · conv_rhs => rw [← List.map_id db]
            apply List.map_congr_left
            intro a ha
            unfold updAt
            rw [if_neg]
            · rfl
            · intro hh
              exact hnotdb (hh ▸ List.mem_map_of_mem Prod.fst ha)
      have hQda : ∀ a ∈ da,
          (!(((r :: rs).map _result_key).contains a.1)) =
          (!((rs.map _result_key).contains a.1)) := by
        intro a ha
        have hane : (a.1 == _result_key r) = false := by
          simp only [beq_eq_false_iff_ne, ne_eq]
          intro hh
          exact hnotda (hh ▸ List.mem_map_of_mem Prod.fst ha)
        rw [List.map_cons, List.contains_cons, hane, Bool.false_or]
      have hQdb : ∀ a ∈ db,
          (!(((r :: rs).map _result_key).contains a.1)) =
          (!((rs.map _result_key).contains a.1)) := by
        intro a ha
        have hane : (a.1 == _result_key r) = false := by
          simp only [beq_eq_false_iff_ne, ne_eq]
          intro hh
          exact hnotdb (hh ▸ List.mem_map_of_mem Prod.fst ha)
        rw [List.map_cons, List.contains_cons, hane, Bool.false_or]
      have hQen : (!(((r :: rs).map _result_key).contains en.1)) = false := by
        rw [List.map_cons, List.contains_cons, henk]
        simp
      have hfQ : d.filter (fun e => !(((r :: rs).map _result_key).contains e.1)) =
          da.filter (fun e => !((rs.map _result_key).contains e.1)) ++
          db.filter (fun e => !((rs.map _result_key).contains e.1)) := by
        rw [hsplit, List.filter_append, List.filter_cons_of_neg (by simpa using hQen),
          List.filter_congr hQda, List.filter_congr hQdb]
      have hfP : (d.map (updAt r (w * (1 / ((K : ℚ) + (ρ : ℚ)))))).filter
          (fun e => !((rs.map _result_key).contains e.1)) =
          da.filter (fun e => !((rs.map _result_key).contains e.1)) ++
          (en.1, updItem en.2 r (w * (1 / ((K : ℚ) + (ρ : ℚ))))) ::
          db.filter (fun e => !((rs.map _result_key).contains e.1)) := by
        rw [hmapd, List.filter_append, List.filter_cons_of_pos (by simpa [henk] using hcontr)]
      rw [hfP, hfQ]
      have hlk : d.lookup (_result_key r) = some en.2 := by
        apply lookup_of_mem_nodup d hd
        rw [← henk]
        exact hen
      rw [bmTarget, hlk]
      refine ((List.Perm.append_left _ List.perm_middle).trans ?_)
      have hhead : (match some en.2 with
          | some it => (_result_key r, updItem it r (w * (1 / ((K : ℚ) + (ρ : ℚ)))))
          | none => mkEntry r (w * (1 / ((K : ℚ) + (ρ : ℚ))))) =
          (en.1, updItem en.2 r (w * (1 / ((K : ℚ) + (ρ : ℚ))))) := by
        rw [henk]
      rw [hhead, List.cons_append]
      exact List.perm_middle
    · rw [addOne_absent r _ d hmem]
      have hfst2 : ((d ++ [mkEntry r (w * (1 / ((K : ℚ) + (ρ : ℚ))))]).map Prod.fst) =
          d.map Prod.fst ++ [_result_key r] := by
        simp [mkEntry]
      have hd2 : ((d ++ [mkEntry r (w * (1 / ((K : ℚ) + (ρ : ℚ))))]).map Prod.fst).Nodup := by
        rw [hfst2, List.nodup_append]
        refine ⟨hd, by simp, ?_⟩
        intro a ha hb
        rcases List.mem_singleton.mp hb with h
        rw [h] at ha
        exact hmem ha
      have hperm := addRanked_perm_bmTarget w K rs (ρ + 1)
        (d ++ [mkEntry r (w * (1 / ((K : ℚ) + (ρ : ℚ))))]) hnd.2 hd2
      refine hperm.trans ?_
      have hbt : bmTarget w K (d ++ [mkEntry r (w * (1 / ((K : ℚ) + (ρ : ℚ))))]) rs (ρ + 1) =
          bmTarget w K d rs (ρ + 1) := by
        apply bmTarget_congr
        intro a ha
        apply lookup_append_sing_ne
        intro hh
        exact hnd.1 (by rw [show (mkEntry r (w * (1 / ((K : ℚ) + (ρ : ℚ))))).1 =
          _result_key r from rfl] at hh; exact hh ▸ List.mem_map_of_mem _result_key ha)
      rw [hbt]
      have hfP2 : ((d ++ [mkEntry r (w * (1 / ((K : ℚ) + (ρ : ℚ))))]).filter
          (fun e => !((rs.map _result_key).contains e.1))) =
          d.filter (fun e => !((rs.map _result_key).contains e.1)) ++
          [mkEntry r (w * (1 / ((K : ℚ) + (ρ : ℚ))))] := by
        rw [List.filter_append, List.filter_cons_of_pos (by simpa using hcontr)]
        rfl
      have hfQ2 : d.filter (fun e => !(((r :: rs).map _result_key).contains e.1)) =
          d.filter (fun e => !((rs.map _result_key).contains e.1)) := by
        apply List.filter_congr
        intro a ha
        have hane : (a.1 == _result_key r) = false := by
          simp only [beq_eq_false_iff_ne, ne_eq]
          intro hh
          exact hmem (hh ▸ List.mem_map_of_mem Prod.fst ha)
        rw [List.map_cons, List.contains_cons, hane, Bool.false_or]
      rw [hfP2, hfQ2, bmTarget, lookup_none_of_not_mem d _ hmem, ← List.append_assoc]
      refine (List.perm_append_singleton _ _).trans ?_
      rw [List.cons_append]

theorem bmTarget_map_fst (w : ℚ) (K : ℕ) (d : List FEntry) :
    ∀ (rs : List RItem) (rank : ℕ),
      (bmTarget w K d rs rank).map Prod.fst = rs.map _result_key
  | [], _ => rfl
  | r :: rs, rank => by
    rw [bmTarget, List.map_cons, List.map_cons, bmTarget_map_fst w K d rs (rank + 1)]
    congr 1
    cases d.lookup (_result_key r) <;> rfl

theorem bmTarget_score_of_mem (w : ℚ) (K : ℕ) (d : List FEntry)
    (hd0 : ∀ e ∈ d, e.2.score = 0) :
    ∀ (rs : List RItem) (rank : ℕ) (e : FEntry), e ∈ bmTarget w K d rs rank →
      ∃ m, rank ≤ m ∧ e.2.score = w * (1 / ((K : ℚ) + (m : ℚ)))
  | [], _, _, he => by simp [bmTarget] at he
  | r :: rs, rank, e, he => by
    rw [bmTarget, List.mem_cons] at he
    rcases he with he | he
    · refine ⟨rank, le_refl _, ?_⟩
      rw [he]
      cases hl : d.lookup (_result_key r) with
      | some it =>
        show (updItem it r _).score = _
        unfold updItem
        dsimp only
        have : it.score = 0 := hd0 (_result_key r, it) (lookup_mem d _ it hl)
        rw [this, zero_add]
      | none => rfl
    · obtain ⟨m, hm, hs⟩ := bmTarget_score_of_mem w K d hd0 rs (rank + 1) e he
      exact ⟨m, by omega, hs⟩

theorem bmTarget_head_score (w : ℚ) (K : ℕ) (d : List FEntry)
    (hd0 : ∀ e ∈ d, e.2.score = 0) (r : RItem) (rank : ℕ) :
    (match d.lookup (_result_key r) with
      | some it => (_result_key r, updItem it r (w * (1 / ((K : ℚ) + (rank : ℚ)))))
      | none => mkEntry r (w * (1 / ((K : ℚ) + (rank : ℚ))))).2.score =
      w * (1 / ((K : ℚ) + (rank : ℚ))) := by
  cases hl : d.lookup (_result_key r) with
  | some it =>
    show (updItem it r _).score = _
    unfold updItem
    dsimp only
    have : it.score = 0 := hd0 (_result_key r, it) (lookup_mem d _ it hl)
    rw [this, zero_add]
  | none => rfl

theorem bmTarget_pairwise (w : ℚ) (hw : 0 < w) (K : ℕ) (d : List FEntry)
    (hd0 : ∀ e ∈ d, e.2.score = 0) :
    ∀ (rs : List RItem) (rank : ℕ), 0 < K + rank →
      (bmTarget w K d rs rank).Pairwise (fun a b => b.2.score < a.2.score)
  | [], _, _ => List.Pairwise.nil
  | r :: rs, rank, hKr => by
    rw [bmTarget]
    constructor
    · intro b hb
      obtain ⟨m, hm, hbs⟩ := bmTarget_score_of_mem w K d hd0 rs (rank + 1) b hb
      rw [hbs, bmTarget_head_score w K d hd0 r rank]
      apply mul_lt_mul_of_pos_left _ hw
      have h1 : (0 : ℚ) < (K : ℚ) + (rank : ℚ) := by exact_mod_cast hKr
      have h2 : ((K : ℚ) + (rank : ℚ)) < ((K : ℚ) + (m : ℚ)) := by
        have hm' : K + rank < K + m := by omega
        exact_mod_cast hm'
      exact one_div_lt_one_div_of_lt h1 h2
    · exact bmTarget_pairwise w hw K d hd0 rs (rank + 1) (by omega)

theorem bmTarget_score_pos (w : ℚ) (hw : 0 < w) (K : ℕ) (d : List FEntry)
    (hd0 : ∀ e ∈ d, e.2.score = 0) (rs : List RItem) (rank : ℕ)
    (hKr : 0 < K + rank) (e : FEntry) (he : e ∈ bmTarget w K d rs rank) :
    0 < e.2.score := by
  obtain ⟨m, hm, hs⟩ := bmTarget_score_of_mem w K d hd0 rs rank e he
  rw [hs]
  apply mul_pos hw
  apply one_div_pos.mpr
  have hKm : 0 < K + m := by omega
  exact_mod_cast hKm

theorem rankedFresh_zero_score (K : ℕ) (rs : List RItem) (ρ : ℕ) :
    ∀ e ∈ rankedFresh 0 K rs ρ, e.2.score = 0 := by
  intro e he
  obtain ⟨m, _, hs⟩ := rankedFresh_score_of_mem 0 K rs ρ e he
  rw [hs, zero_mul]

/-- The `alpha = 0` fused ranking starts with the lexical items in
lexical rank order (updated first-pass entries for shared keys, fresh
entries otherwise); vector-only entries, carrying score `0.0`, follow. -/
theorem fusedRanking_alpha_zero (K : ℕ) (vec bm : List RItem)
    (hv : (vec.map _result_key).Nodup) (hb : (bm.map _result_key).Nodup) :
    ∃ M', fusedRanking 0 K vec bm =
      bmTarget 1 K (rankedFresh 0 K vec 1) bm 1 ++ M' := by
  have h10 : (1 : ℚ) - 0 = 1 := by norm_num
  have hfirst : addRanked 0 K vec 1 [] = rankedFresh 0 K vec 1 := by
    rw [addRanked_eq 0 K vec 1 [] hv (by simp)]
    simp only [List.map_nil, List.nil_append]
    exact freshEntries_eq_rankedFresh 0 K vec 1 [] hv (by simp)
  have hE : fuseEntries 0 K vec bm = addRanked 1 K bm 1 (rankedFresh 0 K vec 1) := by
    unfold fuseEntries
    rw [h10, hfirst]
  have hdnod : ((rankedFresh 0 K vec 1).map Prod.fst).Nodup := by
    rw [rankedFresh_map_fst]
    exact hv
  have hperm0 := addRanked_perm_bmTarget 1 K bm 1 (rankedFresh 0 K vec 1) hb hdnod
  rw [← hE] at hperm0
  have hperm : List.Perm (fusedRanking 0 K vec bm)
      (bmTarget 1 K (rankedFresh 0 K vec 1) bm 1 ++
        (rankedFresh 0 K vec 1).filter
          (fun e => !((bm.map _result_key).contains e.1))) :=
    (List.mergeSort_perm _ _).trans hperm0
  have hd0 := rankedFresh_zero_score K vec 1
  have hB := bmTarget_pairwise 1 one_pos K _ hd0 bm 1 (by omega)
  have hcross : ∀ a ∈ bmTarget 1 K (rankedFresh 0 K vec 1) bm 1,
      ∀ e ∈ (rankedFresh 0 K vec 1).filter
        (fun e => !((bm.map _result_key).contains e.1)), e.2.score < a.2.score := by
    intro a ha e he
    rw [hd0 e (List.mem_of_mem_filter he)]
    exact bmTarget_score_pos 1 one_pos K _ hd0 bm 1 (by omega) a ha
  obtain ⟨M', hM', _⟩ := sorted_perm_extract _ _ _ hperm
    (sorted_fusedRanking 0 K vec bm) hB hcross
  exact ⟨M', hM'⟩

theorem take_append_of_le_len {α : Type} (n : ℕ) (l₁ l₂ : List α)
    (h : n ≤ l₁.length) : (l₁ ++ l₂).take n = l₁.take n := by
  rw [List.take_append_eq_append_take, Nat.sub_eq_zero_of_le h, List.take_zero,
    List.append_nil]

/-- C4 (counterexample): with no vector results, one lexical result and
`final_top_k = 1`, fusing with `alpha = 1.0` returns the lexical item
(inserted with weighted contribution `0.0`), while the vector-only
top-K is empty — so the fused order does not equal the vector-only
top-K for every `topK`. -/
theorem hybrid_fuse_alpha_limits_cex :
    _hybrid_fuse 1 ([] : List RItem) [bmCexItem] 1 60 =
      [⟨some "b1", "lexical only", [], 0⟩] ∧
    ¬ _hybrid_fuse 1 ([] : List RItem) [bmCexItem] 1 60 = [] := by
  have heff : effAlpha 1 = 1 := by
    unfold effAlpha
    rw [if_pos (by norm_num)]
  have hz : (1 - effAlpha 1) * (1 / (((60 : ℕ) : ℚ) + ((1 : ℕ) : ℚ))) = 0 := by
    rw [heff, sub_self, zero_mul]
  have h1 : fuseEntries (effAlpha 1) 60 [] [bmCexItem] = [mkEntry bmCexItem 0] := by
    show [mkEntry bmCexItem ((1 - effAlpha 1) * (1 / (((60 : ℕ) : ℚ) + ((1 : ℕ) : ℚ))))] =
      [mkEntry bmCexItem 0]
    rw [hz]
  have heq : _hybrid_fuse 1 ([] : List RItem) [bmCexItem] 1 60 =
      [⟨some "b1", "lexical only", [], 0⟩] := by
    unfold _hybrid_fuse fusedRanking
    rw [h1, List.mergeSort_singleton]
    rfl
  exact ⟨heq, by rw [heq]; simp⟩

/-- C4 (amended): for ranked lists with pairwise-distinct identity
keys, `alpha = 1.0` makes the fused ranking start with the vector
results in vector order and `alpha = 0.0` makes it start with the
lexical results in lexical order, lexical-only (resp. vector-only)
entries with zero score trailing behind; hence the fused output equals
the favoured list's top-K whenever `topK` does not exceed that list's
length (for `alpha = 1.0` even the item texts agree; for `alpha = 0.0`
the identity keys agree, texts of shared keys being first written by
the vector pass). -/
theorem hybrid_fuse_alpha_limits (vec bm : List RItem) (topK K : ℕ)
    (hv : (vec.map _result_key).Nodup) (hb : (bm.map _result_key).Nodup) :
    (topK ≤ vec.length →
      ((fusedRanking 1 K vec bm).take topK).map Prod.fst =
        (vec.map _result_key).take topK ∧
      (_hybrid_fuse 1 vec bm topK K).map FItem.text = (vec.take topK).map RItem.text) ∧
    (topK ≤ bm.length →
      ((fusedRanking 0 K vec bm).take topK).map Prod.fst =
        (bm.map _result_key).take topK) := by
  constructor
  · intro htop
    obtain ⟨M', hM'⟩ := fusedRanking_alpha_one K vec bm hv hb
    have hlen : ((rankedFresh 1 K vec 1).map (passUpd 0 K 1 bm)).length = vec.length := by
      rw [List.length_map, rankedFresh_length]
    have htake : (fusedRanking 1 K vec bm).take topK =
        ((rankedFresh 1 K vec 1).map (passUpd 0 K 1 bm)).take topK := by
      rw [hM']
      exact take_append_of_le_len topK _ M' (by rw [hlen]; exact htop)
    have hfstB : ((rankedFresh 1 K vec 1).map (passUpd 0 K 1 bm)).map Prod.fst =
        vec.map _result_key := by
      rw [List.map_map]
      rw [show (Prod.fst ∘ passUpd 0 K 1 bm) = Prod.fst from funext fun e => passUpd_fst ..]
      exact rankedFresh_map_fst 1 K vec 1
    have htxtB : ((rankedFresh 1 K vec 1).map (passUpd 0 K 1 bm)).map
        (fun e => e.2.text) = vec.map RItem.text := by
      rw [List.map_map]
      rw [show ((fun e : FEntry => e.2.text) ∘ passUpd 0 K 1 bm) =
        (fun e : FEntry => e.2.text) from funext fun e => passUpd_text ..]
      exact rankedFresh_map_text 1 K vec 1
    constructor
    · rw [htake, List.map_take, hfstB]
    · have heff1 : effAlpha 1 = 1 := by
        unfold effAlpha
        rw [if_pos (by norm_num)]
      unfold _hybrid_fuse
      rw [heff1, List.map_map, htake]
      rw [show (FItem.text ∘ Prod.snd) = (fun e : FEntry => e.2.text) from rfl]
      rw [List.map_take, htxtB, List.map_take]
  · intro htop
    obtain ⟨M', hM'⟩ := fusedRanking_alpha_zero K vec bm hv hb
    have hlen : (bmTarget 1 K (rankedFresh 0 K vec 1) bm 1).length = bm.length := by
      have := congrArg List.length (bmTarget_map_fst 1 K (rankedFresh 0 K vec 1) bm 1)
      simpa using this
    have htake : (fusedRanking 0 K vec bm).take topK =
        (bmTarget 1 K (rankedFresh 0 K vec 1) bm 1).take topK := by
      rw [hM']
      exact take_append_of_le_len topK _ M' (by rw [hlen]; exact htop)
    rw [htake, List.map_take, bmTarget_map_fst]

theorem hybrid_fuse_alpha_limits_witness :
    ((fusedRanking 1 60 [vItemK] [bItemK]).take 1).map Prod.fst =
      ([vItemK].map _result_key).take 1 ∧
    (_hybrid_fuse 1 [vItemK] [bItemK] 1 60).map FItem.text =
      ([vItemK].take 1).map RItem.text ∧
    ((fusedRanking 0 60 [vItemK] [bItemK]).take 1).map Prod.fst =
      ([bItemK].map _result_key).take 1 :=
  ⟨((hybrid_fuse_alpha_limits [vItemK] [bItemK] 1 60 (by decide) (by decide)).1
      (by decide)).1,
   ((hybrid_fuse_alpha_limits [vItemK] [bItemK] 1 60 (by decide) (by decide)).1
      (by decide)).2,
   (hybrid_fuse_alpha_limits [vItemK] [bItemK] 1 60 (by decide) (by decide)).2
      (by decide)⟩

theorem hybrid_fuse_dedup_witness :
    ((fusedRanking (effAlpha (1 / 2)) 60 [vItemK] [bItemK]).countP
      (fun e => e.1 == "k")) = 1 ∧
    ∀ e ∈ fusedRanking (effAlpha (1 / 2)) 60 [vItemK] [bItemK], e.1 = "k" →
      e.2.score = (1 / 2 : ℚ) * (1 / (((1 : ℕ) : ℚ) + ((60 : ℕ) : ℚ))) +
        (1 - 1 / 2) * (1 / (((1 : ℕ) : ℚ) + ((60 : ℕ) : ℚ))) := by
  have h := hybrid_fuse_dedup (1 / 2) 60 [vItemK] [bItemK] "k" 1 1 (by norm_num)
    (by decide) (by decide) (by decide) (by decide) (by decide) (by decide) rfl rfl
  rw [add_comm (((60 : ℕ) : ℚ)) (((1 : ℕ) : ℚ))] at h
  exact h

/-! ### C5 machinery: score/spec-formula agreement and the ordering of
`BM25Index.query`'s output. -/

theorem bleR_true {a b : ℝ} (h : bleR a b = true) : a ≤ b := by
  unfold bleR at h
  exact of_decide_eq_true h

theorem bleR_of_le {a b : ℝ} (h : a ≤ b) : bleR a b = true := by
  unfold bleR
  exact decide_eq_true h

theorem bltR_true {a b : ℝ} (h : bltR a b = true) : a < b := by
  unfold bltR at h
  exact of_decide_eq_true h

theorem bltR_of_lt {a b : ℝ} (h : a < b) : bltR a b = true := by
  unfold bltR
  exact decide_eq_true h

theorem scoreGE_trans (a b c : ℕ × ℝ) (h1 : scoreGE a b = true)
    (h2 : scoreGE b c = true) : scoreGE a c = true :=
  bleR_of_le (le_trans (bleR_true h2) (bleR_true h1))

theorem scoreGE_total (a b : ℕ × ℝ) : scoreGE a b || scoreGE b a := by
  rcases le_total b.2 a.2 with h | h
  · have h1 : scoreGE a b = true := bleR_of_le h
    simp [h1]
  · have h1 : scoreGE b a = true := bleR_of_le h
    simp [h1]

theorem filterMap_ite (c : ℕ → Bool) (g : ℕ → ℕ × ℝ) :
    ∀ l : List ℕ,
      l.filterMap (fun i => if c i then some (g i) else none) = (l.filter c).map g
  | [] => rfl
  | x :: l => by
    simp only [List.filterMap_cons, List.filter_cons]
    cases hc : c x with
    | false =>
      rw [if_neg Bool.false_ne_true, if_neg Bool.false_ne_true]
      dsimp only
      exact filterMap_ite c g l
    | true =>
      rw [if_pos rfl, if_pos rfl]
      dsimp only
      rw [List.map_cons, filterMap_ite c g l]

theorem scoredDocs_eq (idx : BM25Index) (qT : List String) :
    scoredDocs idx qT =
      ((List.range idx.N).filter (fun i => bltR 0 (idx.score qT i))).map
        (fun i => (i, idx.score qT i)) :=
  filterMap_ite (fun i => bltR 0 (idx.score qT i)) (fun i => (i, idx.score qT i))
    (List.range idx.N)

theorem scoredDocs_pairwise_fst (idx : BM25Index) (qT : List String) :
    (scoredDocs idx qT).Pairwise (fun a b => a.1 < b.1) := by
  rw [scoredDocs_eq, List.pairwise_map]
  exact (List.pairwise_lt_range idx.N).filter _

theorem scoredDocs_mem (idx : BM25Index) (qT : List String) (p : ℕ × ℝ)
    (hp : p ∈ scoredDocs idx qT) :
    p.1 < idx.N ∧ p.2 = idx.score qT p.1 ∧ 0 < p.2 := by
  rw [scoredDocs_eq] at hp
  obtain ⟨i, hi, rfl⟩ := List.mem_map.mp hp
  obtain ⟨him, hic⟩ := List.mem_filter.mp hi
  exact ⟨List.mem_range.mp him, rfl, bltR_true hic⟩

theorem scoredDocs_mem_of (idx : BM25Index) (qT : List String) (i : ℕ)
    (hi : i < idx.N) (hpos : 0 < idx.score qT i) :
    (i, idx.score qT i) ∈ scoredDocs idx qT := by
  rw [scoredDocs_eq]
  exact List.mem_map_of_mem _
    (List.mem_filter.mpr ⟨List.mem_range.mpr hi, bltR_of_lt hpos⟩)

theorem scoredDocs_length (idx : BM25Index) (qT : List String) :
    (scoredDocs idx qT).length =
      (List.range idx.N).countP (fun i => bltR 0 (idx.score qT i)) := by
  rw [scoredDocs_eq, List.length_map, ← List.countP_eq_length_filter]

theorem pair_sublist_of_fst_lt (S : List (ℕ × ℝ))
    (hS : S.Pairwise (fun a b => a.1 < b.1)) :
    ∀ a b : ℕ × ℝ, a ∈ S → b ∈ S → a.1 < b.1 → [a, b].Sublist S := by
  induction S with
  | nil =>
    intro a b ha
    simp at ha
  | cons x S ih =>
    rw [List.pairwise_cons] at hS
    intro a b ha hb hab
    rcases List.mem_cons.mp ha with rfl | ha'
    · rcases List.mem_cons.mp hb with rfl | hb'
      · exact absurd hab (lt_irrefl _)
      · exact List.Sublist.cons₂ _ (List.singleton_sublist.mpr hb')
    · rcases List.mem_cons.mp hb with rfl | hb'
      · exact absurd hab (lt_asymm (hS.1 a ha'))
      · exact List.Sublist.cons _ (ih hS.2 a b ha' hb' hab)

theorem pairwise_stable_of_sorted (M : List (ℕ × ℝ))
    (hge : M.Pairwise (fun a b => b.2 ≤ a.2))
    (hnd : (M.map Prod.fst).Nodup)
    (hstab : ∀ a b : ℕ × ℝ, a ∈ M → b ∈ M → a.2 = b.2 → b.1 < a.1 →
      [b, a].Sublist M) :
    M.Pairwise (fun a b => b.2 < a.2 ∨ (a.2 = b.2 ∧ a.1 < b.1)) := by
  induction M with
  | nil => exact List.Pairwise.nil
  | cons m M ih =>
    rw [List.pairwise_cons] at hge ⊢
    rw [List.map_cons, List.nodup_cons] at hnd
    refine ⟨?_, ih hge.2 hnd.2 ?_⟩
    · intro b hb
      rcases lt_or_eq_of_le (hge.1 b hb) with h | h
      · exact Or.inl h
      · refine Or.inr ⟨h.symm, ?_⟩
        by_contra hnlt
        push_neg at hnlt
        have hne : b.1 ≠ m.1 := fun he => hnd.1 (he ▸ List.mem_map_of_mem Prod.fst hb)
        have hblt : b.1 < m.1 := lt_of_le_of_ne hnlt hne
        have hsub := hstab m b (List.mem_cons_self m M) (List.mem_cons_of_mem m hb)
          h.symm hblt
        cases hsub with
        | cons _ h2 =>
          exact hnd.1 (List.mem_map_of_mem Prod.fst (h2.subset (by simp)))
        | cons₂ h2 =>
          exact absurd hblt (lt_irrefl _)
    · intro a b ha hb he hlt
      have h2 := hstab a b (List.mem_cons_of_mem m ha) (List.mem_cons_of_mem m hb)
        he hlt
      cases h2 with
      | cons _ h3 => exact h3
      | cons₂ h3 => exact absurd (List.mem_map_of_mem Prod.fst hb) hnd.1

theorem bm25_sorted_stable (idx : BM25Index) (qT : List String) :
    ((scoredDocs idx qT).mergeSort scoreGE).Pairwise
      (fun a b => b.2 < a.2 ∨ (a.2 = b.2 ∧ a.1 < b.1)) := by
  have hperm := List.mergeSort_perm (scoredDocs idx qT) scoreGE
  have hSfst := scoredDocs_pairwise_fst idx qT
  apply pairwise_stable_of_sorted
  · have h := List.sorted_mergeSort scoreGE_trans scoreGE_total (scoredDocs idx qT)
    apply h.imp
    intro a b hab
    exact bleR_true hab
  · have h1 : (scoredDocs idx qT).Pairwise (fun a b => a.1 ≠ b.1) :=
      hSfst.imp (fun h => ne_of_lt h)
    have h2 : ((scoredDocs idx qT).map Prod.fst).Pairwise (fun a b => a ≠ b) :=
      List.pairwise_map.mpr h1
    exact (hperm.map Prod.fst).nodup_iff.mpr h2
  · intro a b ha hb he hlt
    have haS : a ∈ scoredDocs idx qT := hperm.mem_iff.mp ha
    have hbS : b ∈ scoredDocs idx qT := hperm.mem_iff.mp hb
    have hsubS : [b, a].Sublist (scoredDocs idx qT) :=
      pair_sublist_of_fst_lt _ hSfst b a hbS haS hlt
    have hpw : List.Pairwise (fun x y => scoreGE x y = true) [b, a] := by
      refine List.Pairwise.cons ?_ (List.pairwise_singleton _ _)
      intro y hy
      rw [List.mem_singleton] at hy
      subst hy
      exact bleR_of_le (le_of_eq he)
    exact List.sublist_mergeSort scoreGE_trans scoreGE_total hpw hsubS

theorem build_tf_facts (k1 b : ℚ) (texts : List String) (i : ℕ) (t : String)
    (hf : (BM25Index.build k1 b texts).tf.getD i (fun _ => 0) t ≠ 0) :
    i < texts.length ∧ (BM25Index.build k1 b texts).doc_len.getD i 0 ≠ 0 ∧
      0 < (BM25Index.build k1 b texts).avgdl := by
  have htf : (BM25Index.build k1 b texts).tf = (texts.map _tokenize).map tfOf := rfl
  have hdleq : (BM25Index.build k1 b texts).doc_len =
      (texts.map _tokenize).map List.length := rfl
  rw [htf] at hf
  have hi : i < (texts.map _tokenize).length := by
    by_contra hge
    push_neg at hge
    rw [List.getD_eq_default _ _ (by simpa using hge)] at hf
    exact hf rfl
  have hi' : i < ((texts.map _tokenize).map tfOf).length := by simpa using hi
  rw [List.getD_eq_getElem _ _ hi', List.getElem_map] at hf
  have htmem : t ∈ (texts.map _tokenize)[i] := by
    by_contra hnm
    exact hf (List.count_eq_zero.mpr hnm)
  have hlenpos : 0 < (texts.map _tokenize)[i].length :=
    List.length_pos.mpr (List.ne_nil_of_mem htmem)
  have hiT : i < texts.length := by simpa using hi
  refine ⟨hiT, ?_, ?_⟩
  · rw [hdleq, List.getD_eq_getElem _ _ (by simpa using hi), List.getElem_map]
    exact Nat.pos_iff_ne_zero.mp hlenpos
  · have havgeq : (BM25Index.build k1 b texts).avgdl =
        if texts.length = 0 then 0
        else (((texts.map _tokenize).map List.length).sum : ℚ) / (texts.length : ℚ) := rfl
    rw [havgeq, if_neg (by omega)]
    apply div_pos
    · have hmem : (texts.map _tokenize)[i].length ∈
          (texts.map _tokenize).map List.length :=
        List.mem_map_of_mem List.length (List.getElem_mem hi)
      have hsum := List.single_le_sum (fun x _ => Nat.zero_le x) _ hmem
      have hpos : 0 < ((texts.map _tokenize).map List.length).sum :=
        lt_of_lt_of_le hlenpos hsum
      exact_mod_cast hpos
    · have : 0 < texts.length := by omega
      exact_mod_cast this

theorem score_eq_spec_aux (idx : BM25Index) (qT : List String) (i : ℕ)
    (hk1 : 0 < idx.k1) (hb0 : 0 ≤ idx.b) (hb1 : idx.b ≤ 1)
    (hfacts : ∀ t, idx.tf.getD i (fun _ => 0) t ≠ 0 →
      idx.doc_len.getD i 0 ≠ 0 ∧ 0 < idx.avgdl ∧ idx.N ≠ 0) :
    idx.score qT i = scoreSpec idx qT i := by
  unfold BM25Index.score scoreSpec
  dsimp only
  congr 1
  apply List.map_congr_left
  intro t _
  by_cases hf : idx.tf.getD i (fun _ => 0) t = 0
  · rw [if_pos hf, hf]
    simp
  · rw [if_neg hf]
    obtain ⟨hdl, havg, hN0⟩ := hfacts t hf
    have havgne : idx.avgdl ≠ 0 := ne_of_gt havg
    rw [if_neg hdl, if_neg havgne]
    have hf1 : (1 : ℝ) ≤ ((idx.tf.getD i (fun _ => 0) t : ℕ) : ℝ) := by
      exact_mod_cast Nat.one_le_iff_ne_zero.mpr hf
    have hdl1 : (1 : ℝ) ≤ ((idx.doc_len.getD i 0 : ℕ) : ℝ) := by
      exact_mod_cast Nat.one_le_iff_ne_zero.mpr hdl
    have havgR : (0 : ℝ) < (idx.avgdl : ℝ) := by exact_mod_cast havg
    have hk1R : (0 : ℝ) < (idx.k1 : ℝ) := by exact_mod_cast hk1
    have hb0R : (0 : ℝ) ≤ (idx.b : ℝ) := by exact_mod_cast hb0
    have hb1R : (idx.b : ℝ) ≤ 1 := by exact_mod_cast hb1
    have hinner : (0 : ℝ) < 1 - (idx.b : ℝ) +
        (idx.b : ℝ) * ((idx.doc_len.getD i 0 : ℕ) : ℝ) / (idx.avgdl : ℝ) := by
      have h2 : (0 : ℝ) ≤
          (idx.b : ℝ) * ((idx.doc_len.getD i 0 : ℕ) : ℝ) / (idx.avgdl : ℝ) :=
        div_nonneg (mul_nonneg hb0R (Nat.cast_nonneg _)) havgR.le
      rcases lt_or_eq_of_le hb1R with hblt | hbeq
      · linarith
      · have h3 : (0 : ℝ) < ((idx.doc_len.getD i 0 : ℕ) : ℝ) / (idx.avgdl : ℝ) :=
          div_pos (by linarith) havgR
        rw [hbeq, one_mul]
        linarith
    have hdenom : (0 : ℝ) < ((idx.tf.getD i (fun _ => 0) t : ℕ) : ℝ) +
        (idx.k1 : ℝ) * (1 - (idx.b : ℝ) +
          (idx.b : ℝ) * ((idx.doc_len.getD i 0 : ℕ) : ℝ) / (idx.avgdl : ℝ)) := by
      have hKi := mul_pos hk1R hinner
      linarith
    rw [if_neg (ne_of_gt hdenom)]
    unfold BM25Index._idf
    rw [if_neg hN0]

theorem score_eq_spec (k1 b : ℚ) (texts : List String) (qT : List String) (i : ℕ)
    (hk1 : 0 < k1) (hb0 : 0 ≤ b) (hb1 : b ≤ 1) :
    (BM25Index.build k1 b texts).score qT i =
      scoreSpec (BM25Index.build k1 b texts) qT i := by
  apply score_eq_spec_aux
  · exact hk1
  · exact hb0
  · exact hb1
  · intro t hf
    obtain ⟨hi, hdl, havg⟩ := build_tf_facts k1 b texts i t hf
    refine ⟨hdl, havg, ?_⟩
    have hN : (BM25Index.build k1 b texts).N = texts.length := rfl
    rw [hN]
    omega

/-- C5: on an index built from a non-empty corpus with BM25 parameters
in the standard range (`0 < k1`, `0 ≤ b ≤ 1`, as the configured
`k1 = 1.5`, `b = 0.75` are), `BM25Index.query` returns exactly the
documents whose score is strictly positive, each paired with its score
computed per query term as `idf(t) * tf*(k1+1) / (tf + k1*(1-b+b*dl/avgdl))`
with `idf = ln((N-df+0.5)/(df+0.5)+1)`: the output length is
`min top_k` (number of positively-scored documents), every returned
pair carries a valid index with its positive spec-formula score, the
output is sorted by score descending with ties broken by the original
document order, and (when `top_k` does not truncate) every
positively-scored document appears. -/
theorem bm25_query_spec (k1 b : ℚ) (texts : List String) (q : String) (top_k : ℕ)
    (hk1 : 0 < k1) (hb0 : 0 ≤ b) (hb1 : b ≤ 1) (hne : texts ≠ []) :
    ((BM25Index.build k1 b texts).query q top_k).length =
      min top_k (posCount (BM25Index.build k1 b texts) (_tokenize q)) ∧
    (∀ p ∈ (BM25Index.build k1 b texts).query q top_k,
      p.1 < (BM25Index.build k1 b texts).N ∧
        p.2 = scoreSpec (BM25Index.build k1 b texts) (_tokenize q) p.1 ∧ 0 < p.2) ∧
    ((BM25Index.build k1 b texts).query q top_k).Pairwise
      (fun x y => y.2 < x.2 ∨ (x.2 = y.2 ∧ x.1 < y.1)) ∧
    (posCount (BM25Index.build k1 b texts) (_tokenize q) ≤ top_k →
      ∀ i < (BM25Index.build k1 b texts).N,
        0 < scoreSpec (BM25Index.build k1 b texts) (_tokenize q) i →
        (i, scoreSpec (BM25Index.build k1 b texts) (_tokenize q) i) ∈
          (BM25Index.build k1 b texts).query q top_k) := by
  have hN0 : (BM25Index.build k1 b texts).N ≠ 0 := by
    have hNe : (BM25Index.build k1 b texts).N = texts.length := rfl
    rw [hNe]
    exact fun h => hne (List.length_eq_zero.mp h)
  have hsc : ∀ i, (BM25Index.build k1 b texts).score (_tokenize q) i =
      scoreSpec (BM25Index.build k1 b texts) (_tokenize q) i :=
    fun i => score_eq_spec k1 b texts (_tokenize q) i hk1 hb0 hb1
  have hq : (BM25Index.build k1 b texts).query q top_k =
      ((scoredDocs (BM25Index.build k1 b texts) (_tokenize q)).mergeSort
        scoreGE).take top_k := by
    unfold BM25Index.query
    rw [if_neg hN0]
  have hperm := List.mergeSort_perm
    (scoredDocs (BM25Index.build k1 b texts) (_tokenize q)) scoreGE
  have hposCount : posCount (BM25Index.build k1 b texts) (_tokenize q) =
      (scoredDocs (BM25Index.build k1 b texts) (_tokenize q)).length := by
    rw [scoredDocs_length]
    unfold posCount
    congr 1
    funext i
    rw [hsc i]
  refine ⟨?_, ?_, ?_, ?_⟩
  · rw [hq, List.length_take, hperm.length_eq, hposCount]
  · intro p hp
    rw [hq] at hp
    have hpM := (List.take_sublist _ _).subset hp
    have hpS := hperm.mem_iff.mp hpM
    obtain ⟨h1, h2, h3⟩ := scoredDocs_mem _ _ p hpS
    refine ⟨h1, ?_, h3⟩
    rw [← hsc p.1]
    exact h2
  · rw [hq]
    exact List.Pairwise.sublist (List.take_sublist _ _) (bm25_sorted_stable _ _)
  · intro hle i hi hpos
    have hpos' : 0 < (BM25Index.build k1 b texts).score (_tokenize q) i := by
      rw [hsc i]
      exact hpos
    have hmemS := scoredDocs_mem_of _ _ i hi hpos'
    have hmemM := hperm.mem_iff.mpr hmemS
    have hlen : ((scoredDocs (BM25Index.build k1 b texts)
        (_tokenize q)).mergeSort scoreGE).length ≤ top_k := by
      rw [hperm.length_eq, ← hposCount]
      exact hle
    rw [hq, List.take_of_length_le hlen, ← hsc i]
    exact hmemM

theorem bm25_query_spec_witness :
    ((BM25Index.build (3 / 2) (3 / 4) ["hello world", "hello"]).query "hello" 5).length =
      min 5 (posCount (BM25Index.build (3 / 2) (3 / 4) ["hello world", "hello"])
        (_tokenize "hello")) ∧
    (∀ p ∈ (BM25Index.build (3 / 2) (3 / 4) ["hello world", "hello"]).query "hello" 5,
      p.1 < (BM25Index.build (3 / 2) (3 / 4) ["hello world", "hello"]).N ∧
        p.2 = scoreSpec (BM25Index.build (3 / 2) (3 / 4) ["hello world", "hello"])
          (_tokenize "hello") p.1 ∧ 0 < p.2) ∧
    ((BM25Index.build (3 / 2) (3 / 4) ["hello world", "hello"]).query "hello" 5).Pairwise
      (fun x y => y.2 < x.2 ∨ (x.2 = y.2 ∧ x.1 < y.1)) ∧
    (posCount (BM25Index.build (3 / 2) (3 / 4) ["hello world", "hello"])
        (_tokenize "hello") ≤ 5 →
      ∀ i < (BM25Index.build (3 / 2) (3 / 4) ["hello world", "hello"]).N,
        0 < scoreSpec (BM25Index.build (3 / 2) (3 / 4) ["hello world", "hello"])
          (_tokenize "hello") i →
        (i, scoreSpec (BM25Index.build (3 / 2) (3 / 4) ["hello world", "hello"])
          (_tokenize "hello") i) ∈
          (BM25Index.build (3 / 2) (3 / 4) ["hello world", "hello"]).query "hello" 5) :=
  bm25_query_spec (3 / 2) (3 / 4) ["hello world", "hello"] "hello" 5
    (by norm_num) (by norm_num) (by norm_num) (by decide)
